import Mathlib

set_option maxHeartbeats 1000000

/-!
Verification of `eth/stagedsync/stage_senders.go` (turbo-geth).

Bytes are modelled as `Nat`; a 20-byte address is a `List Nat` of length 20.
The backing `io.ReadWriteCloser` of an `AddressBuffer` is modelled as the
byte stream it holds (`stream`), with `os.File` read/write semantics:
a read fills the given slice with up to `len(slice)` bytes from the front of
the stream and reports `io.EOF` when the stream is exhausted; a write appends
the given bytes and never fails.  `writeCalls` counts the write calls issued
to the backing stream (pure bookkeeping, no Go counterpart).
-/

namespace StageSenders

/-- `AddressBuffer` from stage_senders.go: `buf` is the in-memory window
(write mode: growable accumulator; read mode: fixed-size read window),
`size` the constructor's size argument, `currentIdx` the read cursor. -/
structure AddressBuffer where
  buf : List Nat
  size : Nat
  currentIdx : Int
  stream : List Nat
  writeCalls : Nat
deriving Repr, DecidableEq

/-- `NewAddressBuffer`: `length := size * len(common.Address{})`; in write mode
(`fullLength = true`) the accumulator starts empty, in read mode it is a
zero-filled window of `length` bytes.  `currentIdx` starts at `-1`. -/
def NewAddressBuffer (stream : List Nat) (size : Nat) (fullLength : Bool) : AddressBuffer :=
  let length := size * 20
  let buf : List Nat := if fullLength then [] else List.replicate length 0
  ⟨buf, size, -1, stream, 0⟩

/-- `AddressBuffer.Write`: if the accumulator is non-empty, write it to the
backing stream, reset the accumulator and return the bytes written;
otherwise return 0 without touching the backing stream. -/
def AddressBuffer.Write (a : AddressBuffer) : Nat × AddressBuffer :=
  if a.buf.length > 0 then
    (a.buf.length, { a with stream := a.stream ++ a.buf, buf := [], writeCalls := a.writeCalls + 1 })
  else
    (0, a)

/-- `AddressBuffer.Read`: `a.ReadWriteCloser.Read(a.buf)` — fills a prefix of
the window with the next bytes of the stream, returning the count read. -/
def AddressBuffer.Read (a : AddressBuffer) : Nat × AddressBuffer :=
  let n := min a.stream.length a.buf.length
  (n, { a with buf := a.stream.take n ++ a.buf.drop n, stream := a.stream.drop n })

/-- `AddressBuffer.Add`: append raw bytes to the accumulator. -/
def AddressBuffer.Add (a : AddressBuffer) (b : List Nat) : AddressBuffer :=
  { a with buf := a.buf ++ b }

/-- `AddressBuffer.Reset`: `a.buf = a.buf[:0]`. -/
def AddressBuffer.Reset (a : AddressBuffer) : AddressBuffer :=
  { a with buf := [] }

/-- Errors `AddressBuffer.Next` can return: `io.EOF`, or the
"got invalid address length" corruption error. -/
inductive NextErr where
  | eof
  | invalidAddressLength
deriving Repr, DecidableEq

/-- `AddressBuffer.Next`: reset the cursor when the window is exhausted
(`(currentIdx+2)*20 > len(buf)`), refill the window from the backing stream
when the cursor is `-1` (an exhausted stream is `io.EOF`; a byte count that is
not a multiple of 20 is the corruption error), then advance the cursor and
return the 20-byte record it points at. -/
def AddressBuffer.Next (a0 : AddressBuffer) : Except NextErr (List Nat) × AddressBuffer :=
  let a1 := if (a0.currentIdx + 2) * 20 > (a0.buf.length : Int) then
              { a0 with currentIdx := -1 } else a0
  if a1.currentIdx = -1 then
    if a1.stream.isEmpty then
      (.error .eof, a1)
    else
      let r := a1.Read
      let n := r.1
      let a2 := r.2
      if n % 20 ≠ 0 then (.error .invalidAddressLength, a2)
      else if n = 0 then (.error .eof, a2)
      else
        let a3 := { a2 with currentIdx := a2.currentIdx + 1 }
        (.ok ((a3.buf.drop (a3.currentIdx.toNat * 20)).take 20), a3)
  else
    let a3 := { a1 with currentIdx := a1.currentIdx + 1 }
    (.ok ((a3.buf.drop (a3.currentIdx.toNat * 20)).take 20), a3)

/-- `n` successive calls to `Next`, collecting the records (stopping at the
first error, as every caller in the source does). -/
def AddressBuffer.nextN (a : AddressBuffer) : Nat → Except NextErr (List (List Nat)) × AddressBuffer
  | 0 => (.ok [], a)
  | n + 1 =>
    match a.Next with
    | (.error e, a') => (.error e, a')
    | (.ok r, a') =>
      match a'.nextN n with
      | (.ok rs, a'') => (.ok (r :: rs), a'')
      | (.error e, a'') => (.error e, a'')

/-- Every record in the list is a 20-byte address. -/
def Addrs (l : List (List Nat)) : Prop := ∀ x ∈ l, x.length = 20

theorem Addrs.cons_iff {x : List Nat} {l : List (List Nat)} :
    Addrs (x :: l) ↔ x.length = 20 ∧ Addrs l := by
  constructor
  · intro h; exact ⟨h x (by simp), fun y hy => h y (by simp [hy])⟩
  · rintro ⟨hx, hl⟩ y hy
    rcases List.mem_cons.mp hy with h | h
    · simpa [h] using hx
    · exact hl y h

theorem Addrs.flatten_length {l : List (List Nat)} (h : Addrs l) :
    l.flatten.length = 20 * l.length := by
  induction l with
  | nil => simp
  | cons x t ih =>
    rcases Addrs.cons_iff.mp h with ⟨hx, ht⟩
    simp [List.flatten_cons, hx, ih ht, Nat.mul_succ, Nat.mul_comm]
    ring

theorem Addrs.flatten_take {l : List (List Nat)} (h : Addrs l) (k : Nat) :
    l.flatten.take (20 * k) = (l.take k).flatten := by
  induction l generalizing k with
  | nil => simp
  | cons x t ih =>
    rcases Addrs.cons_iff.mp h with ⟨hx, ht⟩
    cases k with
    | zero => simp
    | succ m =>
      simp only [List.flatten_cons, List.take_succ_cons]
      rw [Nat.mul_succ, Nat.add_comm, List.take_append_eq_append_take]
      have h1 : x.take (20 + 20 * m) = x := List.take_of_length_le (by omega)
      rw [h1, hx]
      have h2 : 20 + 20 * m - 20 = 20 * m := by omega
      rw [h2, ih ht]

theorem Addrs.flatten_drop {l : List (List Nat)} (h : Addrs l) (k : Nat) :
    l.flatten.drop (20 * k) = (l.drop k).flatten := by
  induction l generalizing k with
  | nil => simp
  | cons x t ih =>
    rcases Addrs.cons_iff.mp h with ⟨hx, ht⟩
    cases k with
    | zero => simp
    | succ m =>
      simp only [List.flatten_cons, List.drop_succ_cons]
      rw [Nat.mul_succ, Nat.add_comm, List.drop_append_eq_append_drop, hx]
      have h0 : List.drop (20 + 20 * m) x = [] := by
        apply List.drop_eq_nil_of_le
        rw [hx]; omega
      have h1 : 20 + 20 * m - 20 = 20 * m := by omega
      rw [h0, h1, ih ht]
      simp

/-- Invariant of a read-mode `AddressBuffer` in the middle of a scan:
`pending` are the records still unconsumed in the current window, `future`
the records still in the backing stream.  When records remain in the window
they sit at positions `currentIdx+1 …` and — unless the stream is already
drained — fill the window up to its end, so that the cursor reset at the end
of the window coincides with the window's last loaded record. -/
def Good (size : Nat) (s : AddressBuffer) (pending future : List (List Nat)) : Prop :=
  s.buf.length = size * 20 ∧
  s.stream = future.flatten ∧
  ((s.currentIdx = -1 ∧ pending = []) ∨
   (∃ k : Nat, s.currentIdx = (k : Int) ∧
      k + 1 + pending.length ≤ size ∧
      (k + 1 + pending.length = size ∨ future = []) ∧
      (s.buf.drop ((k + 1) * 20)).take (pending.length * 20) = pending.flatten))

theorem next_step_good {size : Nat} (hsize : 1 ≤ size) {s : AddressBuffer}
    {pending future : List (List Nat)} {x : List Nat} {l' : List (List Nat)}
    (hl : pending ++ future = x :: l') (h20 : Addrs (x :: l'))
    (hg : Good size s pending future) :
    ∃ s' pending' future',
      s.Next = (.ok x, s') ∧ pending' ++ future' = l' ∧ Good size s' pending' future' := by
  obtain ⟨hbuf, hstream, hcase⟩ := hg
  rcases Addrs.cons_iff.mp h20 with ⟨hx20, hl'20⟩
  cases pending with
  | cons x0 ps =>
    -- a record is still available in the window: the cursor just advances
    simp only [List.cons_append] at hl
    injection hl with hx0 hps
    subst hx0
    rcases hcase with ⟨_, hpe⟩ | ⟨k, hk, hle, hor, hwin⟩
    · simp at hpe
    have hk2 : k + 2 ≤ size := by simp at hle; omega
    have hnores : ¬ ((s.currentIdx + 2) * 20 > (s.buf.length : Int)) := by
      rw [hk, hbuf]
      push_cast
      have hks : (k : Int) + 2 ≤ (size : Int) := by exact_mod_cast hk2
      nlinarith
    have hne : ¬ (s.currentIdx = -1) := by rw [hk]; omega
    have htoNat : ((k : Int) + 1).toNat = k + 1 := by omega
    have hM : (20 : Nat) ⊓ ((x0 :: ps).length * 20) = 20 := by
      have : 20 ≤ (x0 :: ps).length * 20 := by
        simp only [List.length_cons]
        omega
      omega
    have hrec : (s.buf.drop ((k + 1) * 20)).take 20 = x0 := by
      have h1 : (s.buf.drop ((k + 1) * 20)).take 20
          = ((s.buf.drop ((k + 1) * 20)).take ((x0 :: ps).length * 20)).take 20 := by
        rw [List.take_take, hM]
      rw [h1, hwin]
      simp only [List.flatten_cons]
      rw [List.take_append_eq_append_take]
      have ht : x0.take 20 = x0 := List.take_of_length_le (by omega)
      simp [ht, hx20]
    refine ⟨{ s with currentIdx := s.currentIdx + 1 }, ps, future, ?_, hps, ?_, ?_, ?_⟩
    · simp only [AddressBuffer.Next, if_neg hnores, if_neg hne]
      refine Prod.ext ?_ rfl
      simp only [hk, htoNat]
      simp [hrec]
    · simpa using hbuf
    · simpa using hstream
    · refine Or.inr ⟨k + 1, ?_, ?_, ?_, ?_⟩
      · simp only [hk]
        push_cast
        ring
      · simp only [List.length_cons] at hle ⊢
        omega
      · rcases hor with h | h
        · left
          simp only [List.length_cons] at h ⊢
          omega
        · right; exact h
      · -- drop the consumed head record from the window equation
        have hstep := congrArg (List.drop 20) hwin
        simp only [List.flatten_cons] at hstep
        rw [List.drop_take, List.drop_drop] at hstep
        rw [List.drop_append_eq_append_drop] at hstep
        have hxdrop : x0.drop 20 = [] := List.drop_eq_nil_of_le (by omega)
        rw [hxdrop, hx20] at hstep
        simp only [List.nil_append] at hstep
        have h1 : (k + 1) * 20 + 20 = (k + 1 + 1) * 20 := by ring
        have h2 : (x0 :: ps).length * 20 - 20 = ps.length * 20 := by
          simp only [List.length_cons]
          omega
        have h3 : (20 : Nat) - 20 = 0 := by omega
        rw [h1, h2, h3] at hstep
        simpa using hstep
  | nil =>
    -- window exhausted (or fresh): refill from the stream
    simp only [List.nil_append] at hl
    subst hl
    have hstr : s.stream = x ++ l'.flatten := by simpa using hstream
    have hslen : s.stream.length = 20 * (l'.length + 1) := by
      rw [hstr]
      simp [Addrs.flatten_length hl'20, hx20]
      ring
    -- after the cursor-reset step the cursor is -1 in either case
    have hreset : ∃ a1 : AddressBuffer,
        (if (s.currentIdx + 2) * 20 > (s.buf.length : Int) then { s with currentIdx := -1 } else s) = a1
        ∧ a1.buf = s.buf ∧ a1.stream = s.stream ∧ a1.currentIdx = -1 ∧ a1.size = s.size
        ∧ a1.writeCalls = s.writeCalls := by
      rcases hcase with ⟨hidx, _⟩ | ⟨k, hk, hle, hor, _⟩
      · refine ⟨if (s.currentIdx + 2) * 20 > (s.buf.length : Int) then { s with currentIdx := -1 } else s, rfl, ?_, ?_, ?_, ?_, ?_⟩ <;>
          split <;> simp [hidx]
      · have hk1 : k + 1 = size := by
          rcases hor with h | h
          · simpa using h
          · exfalso
            rw [h] at hstream
            simp at hstream
            rw [hstream] at hslen
            simp at hslen
        have hres : (s.currentIdx + 2) * 20 > (s.buf.length : Int) := by
          rw [hk, hbuf]
          push_cast
          have hks : (size : Int) = (k : Int) + 1 := by exact_mod_cast hk1.symm
          nlinarith
        exact ⟨{ s with currentIdx := -1 }, by rw [if_pos hres], rfl, rfl, rfl, rfl, rfl⟩
    obtain ⟨a1, ha1eq, ha1buf, ha1stream, ha1idx, ha1size, ha1wc⟩ := hreset
    have hnonempty : a1.stream.isEmpty = false := by
      rw [ha1stream, hstr]
      cases x with
      | nil => simp at hx20
      | cons b bs => simp
    -- the refill read
    set L : Nat := min (l'.length + 1) size with hL
    have hL1 : 1 ≤ L := by rw [hL]; omega
    have hLle : L ≤ l'.length + 1 := by rw [hL]; omega
    have hLsize : L ≤ size := by rw [hL]; omega
    have hn : min a1.stream.length a1.buf.length = 20 * L := by
      rw [ha1stream, ha1buf, hslen, hbuf, hL]
      rw [Nat.mul_comm size 20]
      exact Nat.mul_min_mul_left 20 (l'.length + 1) size
    have hnle : 20 * L ≤ a1.stream.length := by
      rw [ha1stream, hslen]; omega
    have hnlebuf : 20 * L ≤ a1.buf.length := by
      rw [ha1buf, hbuf]
      calc 20 * L ≤ 20 * size := by omega
      _ = size * 20 := by ring
    have h20L : 20 ≤ 20 * L := by omega
    refine ⟨{ a1 with buf := a1.stream.take (20 * L) ++ a1.buf.drop (20 * L),
                      stream := a1.stream.drop (20 * L), currentIdx := -1 + 1 },
            l'.take (L - 1), l'.drop (L - 1), ?_, List.take_append_drop _ _, ?_⟩
    · -- compute `Next` down this path
      simp only [AddressBuffer.Next]
      rw [ha1eq, if_pos ha1idx, hnonempty]
      simp only [Bool.false_eq_true, if_false, AddressBuffer.Read]
      rw [hn]
      have hm : ¬ (20 * L % 20 ≠ 0) := by simp [Nat.mul_mod_right]
      rw [if_neg hm]
      have hz : ¬ (20 * L = 0) := by omega
      rw [if_neg hz]
      rw [ha1idx]
      refine Prod.ext ?_ rfl
      simp only
      norm_num
      -- the first record of the refilled window is `x`
      rw [List.take_append_eq_append_take]
      have hlt : (a1.stream.take (20 * L)).length = 20 * L := by
        rw [List.length_take]; omega
      rw [hlt]
      have h0 : 20 - 20 * L = 0 := by omega
      rw [h0, List.take_take]
      have h20m : (20 : Nat) ⊓ (20 * L) = 20 := by omega
      rw [h20m, ha1stream, hstr]
      rw [List.take_append_eq_append_take]
      have hxt : x.take 20 = x := List.take_of_length_le (by omega)
      simp [hxt, hx20]
    · -- re-establish the invariant for the refilled window
      have hplen : (l'.take (L - 1)).length = L - 1 := by
        rw [List.length_take]
        omega
      refine ⟨?_, ?_, Or.inr ⟨0, by norm_num, ?_, ?_, ?_⟩⟩
      · simp only [List.length_append, List.length_take, List.length_drop, ha1stream, ha1buf,
          hslen, hbuf]
        omega
      · simp only
        rw [ha1stream, hstr, List.drop_append_eq_append_drop]
        have hxd : x.drop (20 * L) = [] := List.drop_eq_nil_of_le (by omega)
        rw [hxd, hx20]
        have h1 : 20 * L - 20 = 20 * (L - 1) := by omega
        rw [h1, Addrs.flatten_drop hl'20]
        simp
      · rw [hplen]; omega
      · rcases Nat.le_total (l'.length + 1) size with h | h
        · right
          have hq : L = l'.length + 1 := by rw [hL]; omega
          rw [hq]
          simp
        · left
          have hq : L = size := by rw [hL]; omega
          rw [hplen, hq]
          omega
      · rw [hplen]
        simp only [Int.toNat_zero]
        rw [List.drop_append_eq_append_drop]
        have hlt : (a1.stream.take (20 * L)).length = 20 * L := by
          rw [List.length_take]; omega
        rw [hlt]
        have h0 : (0 + 1) * 20 - 20 * L = 0 := by omega
        have h1 : (0 + 1) * 20 = 20 := by omega
        rw [h0, h1, List.drop_take, List.take_append_eq_append_take]
        have hdt : ((a1.stream.drop 20).take (20 * L - 20)).length = 20 * L - 20 := by
          rw [List.length_take, List.length_drop]
          omega
        rw [hdt]
        have h2 : (L - 1) * 20 - (20 * L - 20) = 0 := by omega
        have h3 : (L - 1) * 20 = 20 * (L - 1) := by ring
        rw [h2, h3, List.take_take]
        have h4 : 20 * (L - 1) ⊓ (20 * L - 20) = 20 * (L - 1) := by omega
        rw [h4, ha1stream, hstr, List.drop_append_eq_append_drop]
        have hxd : x.drop 20 = [] := List.drop_eq_nil_of_le (by omega)
        rw [hxd, hx20]
        have h5 : (20 : Nat) - 20 = 0 := by omega
        rw [h5]
        simp [Addrs.flatten_take hl'20]

theorem nextN_good {size : Nat} (hsize : 1 ≤ size) :
    ∀ (t : Nat) (l pending future : List (List Nat)) (s : AddressBuffer),
      pending ++ future = l → Addrs l → Good size s pending future → t ≤ l.length →
      ∃ s' pending' future',
        s.nextN t = (.ok (l.take t), s') ∧
        pending' ++ future' = l.drop t ∧ Good size s' pending' future' := by
  intro t
  induction t with
  | zero =>
    intro l pending future s hpf h20 hg _
    exact ⟨s, pending, future, by simp [AddressBuffer.nextN], by simpa using hpf, hg⟩
  | succ t ih =>
    intro l pending future s hpf h20 hg hlen
    cases l with
    | nil => simp at hlen
    | cons x l' =>
      obtain ⟨s1, p1, f1, hnext, hpf1, hg1⟩ := next_step_good hsize hpf h20 hg
      have h20' : Addrs l' := (Addrs.cons_iff.mp h20).2
      have hlen' : t ≤ l'.length := by simpa using hlen
      obtain ⟨s2, p2, f2, hrun, hpf2, hg2⟩ := ih l' p1 f1 s1 hpf1 h20' hg1 hlen'
      refine ⟨s2, p2, f2, ?_, by simpa using hpf2, hg2⟩
      simp only [AddressBuffer.nextN, hnext, hrun, List.take_succ_cons]

/-- The spill write pass of the round-trip: `Add` every address to a
write-mode buffer, then flush with `Write`. -/
def spillWrite (wsize : Nat) (addrs : List (List Nat)) : AddressBuffer :=
  ((addrs.foldl AddressBuffer.Add (NewAddressBuffer [] wsize true)).Write).2

theorem foldl_Add_spec (addrs : List (List Nat)) :
    ∀ a : AddressBuffer,
      (addrs.foldl AddressBuffer.Add a).buf = a.buf ++ addrs.flatten ∧
      (addrs.foldl AddressBuffer.Add a).stream = a.stream ∧
      (addrs.foldl AddressBuffer.Add a).size = a.size ∧
      (addrs.foldl AddressBuffer.Add a).currentIdx = a.currentIdx ∧
      (addrs.foldl AddressBuffer.Add a).writeCalls = a.writeCalls := by
  induction addrs with
  | nil => intro a; simp
  | cons x t ih =>
    intro a
    have := ih (a.Add x)
    simpa [AddressBuffer.Add, List.flatten_cons] using this

theorem Write_stream (a : AddressBuffer) :
    ((a.Write).2).stream = a.stream ++ a.buf ∧ ((a.Write).2).buf = [] := by
  by_cases h : a.buf.length > 0
  · simp [AddressBuffer.Write, h]
  · have : a.buf = [] := by
      cases hb : a.buf with
      | nil => rfl
      | cons y ys => rw [hb] at h; simp at h
    simp [AddressBuffer.Write, h, this]

theorem spillWrite_stream (wsize : Nat) (addrs : List (List Nat)) :
    (spillWrite wsize addrs).stream = addrs.flatten := by
  unfold spillWrite
  have h1 := foldl_Add_spec addrs (NewAddressBuffer [] wsize true)
  have h2 := Write_stream (addrs.foldl AddressBuffer.Add (NewAddressBuffer [] wsize true))
  rw [h2.1, h1.1, h1.2.1]
  simp [NewAddressBuffer]

/-- C1: for every sequence of N 20-byte addresses appended via `Add` on an
`AddressBuffer` constructed in write mode and flushed with `Write`, reading
the resulting byte stream back through an `AddressBuffer` constructed in read
mode by calling `Next` N times yields exactly the original sequence of
addresses in the same order. -/
theorem c1_spill_roundtrip (addrs : List (List Nat)) (wsize rsize : Nat)
    (h20 : Addrs addrs) (hr : 1 ≤ rsize) :
    ∃ s', (NewAddressBuffer (spillWrite wsize addrs).stream rsize false).nextN addrs.length
          = (.ok addrs, s') := by
  have hg : Good rsize (NewAddressBuffer (spillWrite wsize addrs).stream rsize false) [] addrs := by
    refine ⟨by simp [NewAddressBuffer], ?_, Or.inl ⟨rfl, rfl⟩⟩
    simp [NewAddressBuffer, spillWrite_stream]
  obtain ⟨s', p', f', hrun, _, _⟩ :=
    nextN_good hr addrs.length addrs [] addrs _ (by simp) h20 hg (le_refl _)
  exact ⟨s', by simpa using hrun⟩

/-- Witness for C1: one concrete address round-trips. -/
theorem c1_spill_roundtrip_witness :
    ∃ s', (NewAddressBuffer (spillWrite 5 [List.replicate 20 7]).stream 1 false).nextN 1
          = (.ok [List.replicate 20 7], s') := by
  have h := c1_spill_roundtrip [List.replicate 20 7] 5 1
    (by intro x hx; simp at hx; simp [hx]) (by omega)
  simpa using h

theorem Next_reset (s : AddressBuffer)
    (h : (s.currentIdx + 2) * 20 > (s.buf.length : Int)) :
    s.Next = ({ s with currentIdx := -1 } : AddressBuffer).Next := by
  simp only [AddressBuffer.Next]
  rw [if_pos h]
  simp only [ite_self]

theorem next_eof_of_empty (s0 : AddressBuffer) (h0 : s0.currentIdx = -1)
    (hs0 : s0.stream = []) : (s0.Next).1 = .error .eof := by
  by_cases hc : (s0.currentIdx + 2) * 20 > (s0.buf.length : Int)
  · simp only [AddressBuffer.Next]
    rw [if_pos hc]
    simp [hs0]
  · simp only [AddressBuffer.Next]
    rw [if_neg hc, if_pos h0]
    simp [hs0]

theorem next_invalid_of_partial (s0 : AddressBuffer) (h0 : s0.currentIdx = -1)
    (hne : s0.stream ≠ []) (hmod : (min s0.stream.length s0.buf.length) % 20 ≠ 0) :
    (s0.Next).1 = .error .invalidAddressLength := by
  have hnonempty : s0.stream.isEmpty = false := by
    cases hq : s0.stream with
    | nil => exact absurd hq hne
    | cons b bs => simp
  by_cases hc : (s0.currentIdx + 2) * 20 > (s0.buf.length : Int)
  · simp only [AddressBuffer.Next]
    rw [if_pos hc]
    simp only [AddressBuffer.Read]
    simp [hnonempty, hmod]
  · simp only [AddressBuffer.Next]
    rw [if_neg hc, if_pos h0]
    simp only [AddressBuffer.Read]
    simp [hnonempty, hmod]

/-- C7: in read mode, `Next` refills its window from the backing stream when
the window is exhausted and returns the next 20-byte record; an exhausted
stream yields an EOF-style error, and a read whose byte count is not a
multiple of 20 yields the "got invalid address length" corruption error
instead of a truncated or fabricated address. -/
theorem c7_next_error_handling (s : AddressBuffer) (size : Nat)
    (hbuf : s.buf.length = size * 20) (hsize : 1 ≤ size)
    (hidx : s.currentIdx = -1 ∨ (s.currentIdx + 2) * 20 > (s.buf.length : Int)) :
    (s.stream = [] → (s.Next).1 = .error .eof) ∧
    (s.stream ≠ [] → (min s.stream.length s.buf.length) % 20 ≠ 0 →
      (s.Next).1 = .error .invalidAddressLength) ∧
    (∀ x rest, s.stream = (x :: rest).flatten → Addrs (x :: rest) →
      (s.Next).1 = .ok x) := by
  refine ⟨?_, ?_, ?_⟩
  · intro hs
    rcases hidx with h | h
    · exact next_eof_of_empty s h hs
    · rw [Next_reset s h]
      exact next_eof_of_empty _ rfl hs
  · intro hne hmod
    rcases hidx with h | h
    · exact next_invalid_of_partial s h hne hmod
    · rw [Next_reset s h]
      exact next_invalid_of_partial _ rfl (by simpa using hne) (by simpa using hmod)
  · intro x rest hstream h20r
    have hg : Good size ({ s with currentIdx := -1 } : AddressBuffer) [] (x :: rest) :=
      ⟨by simpa using hbuf, by simpa using hstream, Or.inl ⟨rfl, rfl⟩⟩
    obtain ⟨s', p', f', hnext, _, _⟩ := next_step_good hsize (List.nil_append _) h20r hg
    rcases hidx with h | h
    · have hs : ({ s with currentIdx := -1 } : AddressBuffer) = s := by
        cases s with
        | mk b sz ci st wc =>
          simp only at h
          simp [h]
      rw [hs] at hnext
      rw [hnext]
    · rw [Next_reset s h, hnext]

/-- Witness for C7: EOF on an empty stream, corruption error on a 3-byte
stream, and a correct record on a well-formed stream. -/
theorem c7_next_error_handling_witness :
    ((AddressBuffer.Next ⟨List.replicate 20 0, 1, -1, [], 0⟩).1 = .error .eof) ∧
    ((AddressBuffer.Next ⟨List.replicate 20 0, 1, -1, [1, 2, 3], 0⟩).1
      = .error .invalidAddressLength) ∧
    ((AddressBuffer.Next ⟨List.replicate 20 0, 1, -1, List.replicate 20 9, 0⟩).1
      = .ok (List.replicate 20 9)) := by
  refine ⟨?_, ?_, ?_⟩
  · exact (c7_next_error_handling ⟨List.replicate 20 0, 1, -1, [], 0⟩ 1 (by simp) (by omega)
      (Or.inl rfl)).1 rfl
  · exact (c7_next_error_handling ⟨List.replicate 20 0, 1, -1, [1, 2, 3], 0⟩ 1 (by simp) (by omega)
      (Or.inl rfl)).2.1 (by simp) (by simp)
  · exact (c7_next_error_handling ⟨List.replicate 20 0, 1, -1, List.replicate 20 9, 0⟩ 1
      (by simp) (by omega) (Or.inl rfl)).2.2 (List.replicate 20 9) []
      (by simp) (by intro y hy; simp at hy; simp [hy])

/-- C10: `Write` on an empty accumulator returns 0 bytes, no error, and issues
no write call on the backing stream; after a successful non-empty `Write` the
accumulator is reset, so an immediately repeated `Write` writes nothing. -/
theorem c10_write_flush_idempotent (a : AddressBuffer) :
    (a.buf = [] → a.Write = (0, a)) ∧
    (a.buf ≠ [] →
      (a.Write).1 = a.buf.length ∧
      ((a.Write).2).buf = [] ∧
      ((a.Write).2).stream = a.stream ++ a.buf ∧
      ((a.Write).2).writeCalls = a.writeCalls + 1 ∧
      ((a.Write).2).Write = (0, (a.Write).2)) := by
  constructor
  · intro h
    simp [AddressBuffer.Write, h]
  · intro h
    have hlen : a.buf.length > 0 := List.length_pos.mpr h
    refine ⟨?_, ?_, ?_, ?_, ?_⟩ <;> simp [AddressBuffer.Write, hlen]

/-- Witness for C10 at concrete buffers. -/
theorem c10_write_flush_idempotent_witness :
    (AddressBuffer.Write ⟨[], 3, -1, [9], 4⟩ = (0, ⟨[], 3, -1, [9], 4⟩)) ∧
    ((AddressBuffer.Write ⟨[1, 2], 3, -1, [9], 4⟩).2.buf = [] ∧
     (AddressBuffer.Write (AddressBuffer.Write ⟨[1, 2], 3, -1, [9], 4⟩).2)
       = (0, (AddressBuffer.Write ⟨[1, 2], 3, -1, [9], 4⟩).2)) := by
  refine ⟨(c10_write_flush_idempotent ⟨[], 3, -1, [9], 4⟩).1 rfl, ?_, ?_⟩
  · exact ((c10_write_flush_idempotent ⟨[1, 2], 3, -1, [9], 4⟩).2 (by simp)).2.1
  · exact ((c10_write_flush_idempotent ⟨[1, 2], 3, -1, [9], 4⟩).2 (by simp)).2.2.2.2

/-!
## Sender recovery (`recoverFrom`)

A transaction carries its replay-protection flag, its chain id (`big.Int`,
modelled as `Int`) and its hash; the signer's `SenderWithContext` (external
collaborator, elliptic-curve recovery) is a function parameter of the model.
-/

/-- A transaction, as seen by `recoverFrom`. -/
structure GoTx where
  protectedTx : Bool
  chainId : Int
  hash : Nat

/-- A signer: its chain id and its `SenderWithContext` recovery primitive
(the crypto context is implicit in the function). -/
structure GoSigner where
  chainId : Int
  senderWithContext : GoTx → Except String (List Nat)

/-- Errors of `recoverFrom`: the "invalid chainId" error, or a wrapped
recovery error naming the offending transaction's hash. -/
inductive RecoverErr where
  | invalidChainId
  | senderFailed (txHash : Nat) (msg : String)
deriving Repr, DecidableEq

/-- `recoverFrom`: for each transaction in order, first check that a
replay-protected transaction carries the signer's chain id, then recover the
sender; any failure aborts the whole block with no address list. -/
def recoverFrom (signer : GoSigner) (txs : List GoTx) : Except RecoverErr (List (List Nat)) :=
  match txs with
  | [] => .ok []
  | tx :: rest =>
    if tx.protectedTx ∧ tx.chainId ≠ signer.chainId then
      .error .invalidChainId
    else
      match signer.senderWithContext tx with
      | .error e => .error (.senderFailed tx.hash e)
      | .ok fr =>
        match recoverFrom signer rest with
        | .ok froms => .ok (fr :: froms)
        | .error e => .error e

/-- A transaction that raises neither failure mode under `signer`. -/
def CleanTx (signer : GoSigner) (tx : GoTx) : Prop :=
  ¬(tx.protectedTx = true ∧ tx.chainId ≠ signer.chainId) ∧
  ∃ a, signer.senderWithContext tx = .ok a

/-- C4: `recoverFrom` is all-or-nothing.  (a) If any transaction is
anomalous — replay-protected with a mismatched chain id, or failing sender
recovery — no (partial) address list is returned.  (b) If the first anomalous
transaction is a chain-id mismatch, the error is "invalid chainId".  (c) If
the first anomalous transaction is a recovery failure, the error names that
transaction's hash.  (d) With no anomaly, exactly one recovered address is
returned per transaction, in transaction order. -/
theorem c4_recoverFrom_all_or_nothing (signer : GoSigner) (txs : List GoTx) :
    ((∃ tx ∈ txs, ¬ CleanTx signer tx) → ∀ l, recoverFrom signer txs ≠ .ok l) ∧
    (∀ pre tx post, txs = pre ++ tx :: post → (∀ p ∈ pre, CleanTx signer p) →
      tx.protectedTx = true ∧ tx.chainId ≠ signer.chainId →
      recoverFrom signer txs = .error .invalidChainId) ∧
    (∀ pre tx post e, txs = pre ++ tx :: post → (∀ p ∈ pre, CleanTx signer p) →
      ¬(tx.protectedTx = true ∧ tx.chainId ≠ signer.chainId) →
      signer.senderWithContext tx = .error e →
      recoverFrom signer txs = .error (.senderFailed tx.hash e)) ∧
    ((∀ tx ∈ txs, CleanTx signer tx) →
      ∃ l, recoverFrom signer txs = .ok l ∧
        List.Forall₂ (fun tx a => signer.senderWithContext tx = .ok a) txs l) := by
  induction txs with
  | nil =>
    refine ⟨?_, ?_, ?_, ?_⟩
    · rintro ⟨tx, htx, -⟩ l
      simp at htx
    · intro pre tx post habs
      exact absurd habs (by simp)
    · intro pre tx post e habs
      exact absurd habs (by simp)
    · intro _
      exact ⟨[], rfl, List.Forall₂.nil⟩
  | cons t rest ih =>
    refine ⟨?_, ?_, ?_, ?_⟩
    · rintro ⟨tx, htx, hbad⟩ l hok
      rcases List.mem_cons.mp htx with rfl | hmem
      · -- the anomalous transaction is the head
        by_cases hmis : tx.protectedTx = true ∧ tx.chainId ≠ signer.chainId
        · simp only [recoverFrom, if_pos hmis] at hok
          exact absurd hok (by simp)
        · simp only [recoverFrom, if_neg hmis] at hok
          rcases hrec : signer.senderWithContext tx with e | a
          · rw [hrec] at hok; simp at hok
          · exact hbad ⟨hmis, a, hrec⟩
      · -- the anomalous transaction is in the tail
        by_cases hmis : t.protectedTx = true ∧ t.chainId ≠ signer.chainId
        · simp only [recoverFrom, if_pos hmis] at hok
          exact absurd hok (by simp)
        · simp only [recoverFrom, if_neg hmis] at hok
          rcases hrec : signer.senderWithContext t with e | a
          · rw [hrec] at hok; simp at hok
          · rw [hrec] at hok
            rcases htail : recoverFrom signer rest with e | froms
            · rw [htail] at hok; simp at hok
            · exact ih.1 ⟨tx, hmem, hbad⟩ froms htail
    · intro pre tx post hsplit hclean hmis
      cases pre with
      | nil =>
        simp only [List.nil_append] at hsplit
        injection hsplit with h1 h2
        subst h1
        simp only [recoverFrom, if_pos hmis]
      | cons p ps =>
        simp only [List.cons_append] at hsplit
        injection hsplit with h1 h2
        subst h1
        have hcp : CleanTx signer t := hclean t (by simp)
        rcases hcp with ⟨hnm, a, ha⟩
        simp only [recoverFrom, if_neg hnm, ha]
        have := ih.2.1 ps tx post h2 (fun p hp => hclean p (by simp [hp])) hmis
        rw [this]
    · intro pre tx post e hsplit hclean hnomis hfail
      cases pre with
      | nil =>
        simp only [List.nil_append] at hsplit
        injection hsplit with h1 h2
        subst h1
        simp only [recoverFrom, if_neg hnomis, hfail]
      | cons p ps =>
        simp only [List.cons_append] at hsplit
        injection hsplit with h1 h2
        subst h1
        have hcp : CleanTx signer t := hclean t (by simp)
        rcases hcp with ⟨hnm, a, ha⟩
        simp only [recoverFrom, if_neg hnm, ha]
        have := ih.2.2.1 ps tx post e h2 (fun p hp => hclean p (by simp [hp])) hnomis hfail
        rw [this]
    · intro hclean
      have hct : CleanTx signer t := hclean t (by simp)
      rcases hct with ⟨hnm, a, ha⟩
      obtain ⟨l, hl, hfa⟩ := ih.2.2.2 (fun tx htx => hclean tx (by simp [htx]))
      refine ⟨a :: l, ?_, List.Forall₂.cons ha hfa⟩
      simp only [recoverFrom, if_neg hnm, ha, hl]

/-- Witness for C4: a clean one-transaction block yields exactly its
recovered address; a mismatched protected transaction fails whole. -/
theorem c4_recoverFrom_all_or_nothing_witness :
    (∃ l, recoverFrom ⟨5, fun _ => .ok (List.replicate 20 3)⟩ [⟨false, 0, 77⟩] = .ok l ∧
       List.Forall₂ (fun tx a => (⟨5, fun _ => .ok (List.replicate 20 3)⟩ :
         GoSigner).senderWithContext tx = .ok a) [⟨false, 0, 77⟩] l) ∧
    (recoverFrom ⟨5, fun _ => .ok (List.replicate 20 3)⟩ [⟨true, 4, 77⟩]
       = .error .invalidChainId) := by
  constructor
  · apply (c4_recoverFrom_all_or_nothing ⟨5, fun _ => .ok (List.replicate 20 3)⟩
      [⟨false, 0, 77⟩]).2.2.2
    intro tx htx
    simp only [List.mem_singleton] at htx
    subst htx
    exact ⟨by simp, List.replicate 20 3, rfl⟩
  · apply (c4_recoverFrom_all_or_nothing ⟨5, fun _ => .ok (List.replicate 20 3)⟩
      [⟨true, 4, 77⟩]).2.1 [] ⟨true, 4, 77⟩ [] rfl
    · intro p hp
      simp at hp
    · exact ⟨rfl, by norm_num⟩

/-!
## Stage progress and unwind (`unwindSendersStage`)
-/

/-- The stage-progress ledger for the Senders stage: the persisted progress
cursor (read by `stages.GetStageProgress`) and the unwind (reset) marker
(written by `stages.SaveStageUnwind`). -/
structure StageDB where
  progress : Nat
  unwindMarker : Nat
deriving Repr, DecidableEq

/-- `stages.SaveStageUnwind(db, stages.Senders, v)`. -/
def saveStageUnwind (db : StageDB) (v : Nat) : StageDB :=
  { db with unwindMarker := v }

/-- A batch (`stateDB.NewBatch()`) holding a pending unwind-marker mutation
until committed. -/
structure StageBatch where
  base : StageDB
  pendingUnwind : Option Nat
deriving Repr, DecidableEq

def newBatch (db : StageDB) : StageBatch := ⟨db, none⟩

def StageBatch.saveStageUnwind (b : StageBatch) (v : Nat) : StageBatch :=
  { b with pendingUnwind := some v }

def StageBatch.commit (b : StageBatch) : StageDB :=
  match b.pendingUnwind with
  | some v => { b.base with unwindMarker := v }
  | none => b.base

/-- `unwindSendersStage`: read the stage progress; if the unwind point is at
or past it, save unwind marker 0 directly on the database; otherwise save
unwind marker 0 through a fresh batch and commit the batch. -/
def unwindSendersStage (stateDB : StageDB) (unwindPoint : Nat) : StageDB :=
  let lastProcessedBlockNumber := stateDB.progress
  if unwindPoint ≥ lastProcessedBlockNumber then
    saveStageUnwind stateDB 0
  else
    ((newBatch stateDB).saveStageUnwind 0).commit

/-- Counterexample to C6: with persisted progress 10 and unwind target 3
(strictly below the progress), the progress cursor is left at 10 — it is not
reset downward to the target 3. -/
theorem c6_unwind_counterexample :
    (unwindSendersStage ⟨10, 7⟩ 3).progress = 10 ∧ (10 : Nat) ≠ 3 := by
  constructor
  · rfl
  · decide

/-- C6 amended: for every unwind target, `unwindSendersStage` leaves the
progress cursor unchanged and only re-asserts the unwind (reset) marker,
setting it to 0 — directly when the target is at or beyond the progress, and
through a committed batch otherwise; it never moves the progress cursor. -/
theorem c6_unwind_marker_only (db : StageDB) (unwindPoint : Nat) :
    unwindSendersStage db unwindPoint = { db with unwindMarker := 0 } := by
  by_cases h : unwindPoint ≥ db.progress
  · simp [unwindSendersStage, h, saveStageUnwind]
  · simp [unwindSendersStage, h, newBatch, StageBatch.saveStageUnwind, StageBatch.commit]

/-!
## Worker pool sizing (`init` and `spawnRecoverSendersStage`)
-/

/-- `init()`: `numOfGoroutines = 3`, capped by `runtime.NumCPU()`. -/
def initNumOfGoroutines (numCPU : Nat) : Nat :=
  let n := 3
  if n > numCPU then numCPU else n

/-- `onlySecondStage := true` in `spawnRecoverSendersStage`: the parallel
recovery branch is statically disabled. -/
def onlySecondStage : Bool := true

/-- The local override inside the (disabled) parallel branch:
`numOfGoroutines := numOfGoroutines` then `numOfGoroutines = 32`. -/
def spawnNumOfGoroutines (numCPU : Nat) : Nat :=
  let _n := initNumOfGoroutines numCPU
  32

/-- The number of recovery worker goroutines `spawnRecoverSendersStage`
spawns: the spawn loop sits inside `if !onlySecondStage`, which never runs. -/
def spawnedRecoverWorkers (numCPU : Nat) : Nat :=
  if !onlySecondStage then spawnNumOfGoroutines numCPU else 0

/-- C9 evaluated on the code: the init-time context pool does equal
min(3, NumCPU), but the stage spawns zero recovery workers in its executed
path — and its disabled parallel branch would spawn 32, not min(3, NumCPU). -/
theorem c9_worker_count_divergence :
    (∀ numCPU, initNumOfGoroutines numCPU = min 3 numCPU) ∧
    (∀ numCPU, spawnNumOfGoroutines numCPU = 32) ∧
    spawnedRecoverWorkers 8 = 0 ∧
    spawnedRecoverWorkers 8 ≠ min 3 8 := by
  refine ⟨?_, ?_, rfl, by decide⟩
  · intro numCPU
    by_cases h : 3 > numCPU
    · simp [initNumOfGoroutines, h]
      omega
    · simp [initNumOfGoroutines, h]
      omega
  · intro numCPU
    rfl

/-!
## Reorder & spill writer (`writeOnDiskBatch`)

Cancellation channels (`quitCh`, `doneCh`) and logging are not modelled; the
loop is the pure function of the incoming result sequence.  The `flushed`
field records, in order, the results whose addresses have been handed to the
spill buffer (bookkeeping; the spill bytes themselves live in the
`AddressBuffer` state).
-/

/-- `TxsFroms`: one recovery result. -/
structure TxsFroms where
  blockNumber : Nat
  froms : List (List Nat)
  err : Option String
deriving Repr, DecidableEq

/-- `sort.SliceStable(buffer, by blockNumber)`: the stable sort by block
number, i.e. insertion sort under the non-strict comparison. -/
def sortBlocks (l : List TxsFroms) : List TxsFroms :=
  List.insertionSort (fun a b => a.blockNumber ≤ b.blockNumber) l

instance : IsTotal TxsFroms (fun a b => a.blockNumber ≤ b.blockNumber) :=
  ⟨fun a b => Nat.le_total a.blockNumber b.blockNumber⟩

instance : IsTrans TxsFroms (fun a b => a.blockNumber ≤ b.blockNumber) :=
  ⟨fun _ _ _ => Nat.le_trans⟩

/-- The contiguity scan: positions `i ≤ toSort` of the sorted buffer must
hold block numbers `currentBlock + i` (the loop breaks once `i > toSort`). -/
def hasRowAux (currentBlock toSort : Nat) : Nat → List TxsFroms → Bool
  | _, [] => true
  | i, j :: rest =>
    if i > toSort then true
    else if j.blockNumber ≠ currentBlock + i then false
    else hasRowAux currentBlock toSort (i + 1) rest

/-- `hasRow`: false when fewer than `toSort` results are buffered, otherwise
the contiguity scan from position 0. -/
def hasRowCheck (currentBlock toSort : Nat) (buffer : List TxsFroms) : Bool :=
  if buffer.length < toSort then false
  else hasRowAux currentBlock toSort 0 buffer

/-- One address of a flushed result: `n++`, `buf.Add`, and flush the spill
buffer (resetting `n`) when `20*n >= buf.size`. -/
def addFromsStep (acc : AddressBuffer × Nat) (fr : List Nat) : AddressBuffer × Nat :=
  let n := acc.2 + 1
  let w := acc.1.Add fr
  if 20 * n ≥ w.size then ((w.Write).2, 0) else (w, n)

/-- All addresses of one flushed result, in order. -/
def flushJob (acc : AddressBuffer × Nat) (job : TxsFroms) : AddressBuffer × Nat :=
  job.froms.foldl addFromsStep acc

/-- Loop state of `writeOnDiskBatch`. -/
structure WodState where
  buffer : List TxsFroms
  flushed : List TxsFroms
  currentBlock : Nat
  isFirst : Bool
  wb : AddressBuffer
  n : Nat
deriving Repr, DecidableEq

/-- The receive loop of `writeOnDiskBatch` (`for j := range out`).  On a
result carrying a non-nil error the source executes `return err` — the
enclosing `err` variable, which is necessarily nil at that point — so the
loop stops consuming but reports no error (the wrapped error at line 321 is
unreachable). -/
def wodLoop (toSort firstBlock : Nat) : List TxsFroms → WodState → WodState × Option String
  | [], st => (st, none)
  | j :: rest, st =>
    let st := if st.isFirst then { st with currentBlock := firstBlock, isFirst := false } else st
    if j.err.isSome then
      (st, none)
    else
      let buffer := sortBlocks (st.buffer ++ [j])
      if hasRowCheck st.currentBlock toSort buffer then
        let writeFroms := buffer.take toSort
        let wn := writeFroms.foldl flushJob (st.wb, st.n)
        wodLoop toSort firstBlock rest
          { buffer := buffer.drop toSort, flushed := st.flushed ++ writeFroms,
            currentBlock := st.currentBlock + toSort, isFirst := false,
            wb := wn.1, n := wn.2 }
      else
        wodLoop toSort firstBlock rest { st with buffer := buffer }

/-- The deferred tail flush (source line 275): walk the sorted remaining
buffer and append every result's addresses to the spill accumulator,
calling `Write` after each result. -/
def tailFlush (wb : AddressBuffer) (jobs : List TxsFroms) : AddressBuffer :=
  jobs.foldl (fun w job => ((job.froms.foldl AddressBuffer.Add w).Write).2) wb

/-- Result of `writeOnDiskBatch`: final loop state, the returned error, the
tail-flushed results, and the spill buffer after both deferred flushes. -/
structure WodResult where
  final : WodState
  ret : Option String
  tail : List TxsFroms
  wb : AddressBuffer
deriving Repr, DecidableEq

/-- `writeOnDiskBatch` with `toSort = 1000`: run the receive loop, then
(deferred, in LIFO order) the tail flush of the sorted remaining buffer and
the final `buf.Write()`. -/
def writeOnDiskBatch (firstBlock : Nat) (input : List TxsFroms) (wb0 : AddressBuffer) :
    WodResult :=
  let r := wodLoop 1000 firstBlock input
    { buffer := [], flushed := [], currentBlock := 0, isFirst := true, wb := wb0, n := 0 }
  let tail := sortBlocks r.1.buffer
  let wb1 := tailFlush r.1.wb tail
  let wb2 := (wb1.Write).2
  { final := r.1, ret := r.2, tail := tail, wb := wb2 }

/-- C3 evaluated at the failing input: the first result carries a non-nil
error; `writeOnDiskBatch` does stop consuming (the later result is never
processed, and the erroneous result's addresses are never written), but it
returns no error — `return err` at the error check returns the enclosing nil
`err` variable, so the result's error is silently dropped. -/
theorem c3_error_result_swallowed :
    (writeOnDiskBatch 5
      [⟨5, [List.replicate 20 1], some "boom"⟩, ⟨6, [List.replicate 20 2], none⟩]
      (NewAddressBuffer [] 8 true)).ret = none ∧
    (writeOnDiskBatch 5
      [⟨5, [List.replicate 20 1], some "boom"⟩, ⟨6, [List.replicate 20 2], none⟩]
      (NewAddressBuffer [] 8 true)).wb.stream = [] ∧
    (writeOnDiskBatch 5
      [⟨5, [List.replicate 20 1], some "boom"⟩, ⟨6, [List.replicate 20 2], none⟩]
      (NewAddressBuffer [] 8 true)).final.flushed = [] := by
  refine ⟨rfl, rfl, rfl⟩

theorem hasRowAux_spec (currentBlock toSort : Nat) :
    ∀ (l : List TxsFroms) (i : Nat), hasRowAux currentBlock toSort i l = true →
      ∀ m, i + m ≤ toSort → ∀ (hm : m < l.length),
        (l.get ⟨m, hm⟩).blockNumber = currentBlock + (i + m) := by
  intro l
  induction l with
  | nil =>
    intro i _ m _ hm
    simp at hm
  | cons j rest ih =>
    intro i h m hmle hm
    rw [hasRowAux] at h
    have hni : ¬ (i > toSort) := by omega
    rw [if_neg hni] at h
    by_cases hbn : j.blockNumber ≠ currentBlock + i
    · rw [if_pos hbn] at h
      simp at h
    · rw [if_neg hbn] at h
      push_neg at hbn
      cases m with
      | zero => simpa using hbn
      | succ m' =>
        have := ih (i + 1) h m' (by omega) (by simpa using hm)
        simp only [List.get_cons_succ] at *
        rw [this]
        omega

theorem hasRowCheck_spec {currentBlock toSort : Nat} {buffer : List TxsFroms}
    (h : hasRowCheck currentBlock toSort buffer = true) :
    toSort ≤ buffer.length ∧
    ∀ m, m < toSort → ∀ (hm : m < buffer.length),
      (buffer.get ⟨m, hm⟩).blockNumber = currentBlock + m := by
  rw [hasRowCheck] at h
  by_cases hl : buffer.length < toSort
  · rw [if_pos hl] at h
    simp at h
  · rw [if_neg hl] at h
    refine ⟨by omega, ?_⟩
    intro m hmlt hm
    have := hasRowAux_spec currentBlock toSort buffer 0 h m (by omega) hm
    simpa using this

theorem map_bn_take_range :
    ∀ (buffer : List TxsFroms) (cb t : Nat), t ≤ buffer.length →
      (∀ m, m < t → ∀ (hm : m < buffer.length), (buffer.get ⟨m, hm⟩).blockNumber = cb + m) →
      ((buffer.take t).map fun j => j.blockNumber) = List.range' cb t := by
  intro buffer
  induction buffer with
  | nil =>
    intro cb t ht _
    simp at ht
    simp [ht]
  | cons j rest ih =>
    intro cb t ht hpos
    cases t with
    | zero => simp
    | succ t' =>
      simp only [List.take_succ_cons, List.map_cons, List.range'_succ, List.cons.injEq]
      constructor
      · have := hpos 0 (by omega) (by simp)
        simpa using this
      · refine ih (cb + 1) t' (by simpa using ht) ?_
        intro m hmlt hm
        have := hpos (m + 1) (by omega) (by simpa using hm)
        simp only [List.get_cons_succ] at this
        rw [this]
        omega

theorem drop_bound_of_sorted {buffer : List TxsFroms} {cb t : Nat}
    (hsorted : List.Sorted (fun a b : TxsFroms => a.blockNumber ≤ b.blockNumber) buffer)
    (hnd : (buffer.map fun j => j.blockNumber).Nodup)
    (ht : 1 ≤ t) (hlen : t ≤ buffer.length)
    (hpos : ∀ m, m < t → ∀ (hm : m < buffer.length), (buffer.get ⟨m, hm⟩).blockNumber = cb + m) :
    ∀ x ∈ buffer.drop t, cb + t ≤ x.blockNumber := by
  intro x hx
  obtain ⟨⟨m, hm⟩, hget⟩ := List.mem_iff_get.mp hx
  have hmlen : t + m < buffer.length := by
    simp only [List.length_drop] at hm
    omega
  have hxg : x = buffer.get ⟨t + m, hmlen⟩ := by
    rw [← hget]
    simp [List.get_eq_getElem, List.getElem_drop]
  have ht1 : t - 1 < buffer.length := by omega
  have hle : (buffer.get ⟨t - 1, ht1⟩).blockNumber ≤ (buffer.get ⟨t + m, hmlen⟩).blockNumber :=
    List.Sorted.rel_get_of_lt hsorted (by simp only [Fin.mk_lt_mk]; omega)
  have hne : (buffer.get ⟨t - 1, ht1⟩).blockNumber ≠ (buffer.get ⟨t + m, hmlen⟩).blockNumber := by
    have hpw := List.pairwise_iff_get.mp hnd
    have := hpw ⟨t - 1, by simpa using ht1⟩ ⟨t + m, by simpa using hmlen⟩
      (by simp only [Fin.mk_lt_mk]; omega)
    simpa using this
  have hval : (buffer.get ⟨t - 1, ht1⟩).blockNumber = cb + (t - 1) := hpos (t - 1) (by omega) ht1
  rw [hxg]
  omega

theorem flushJob_froms_stream :
    ∀ (froms : List (List Nat)) (acc : AddressBuffer × Nat),
      ((froms.foldl addFromsStep acc).1.stream ++ (froms.foldl addFromsStep acc).1.buf
        = acc.1.stream ++ acc.1.buf ++ froms.flatten) ∧
      (froms.foldl addFromsStep acc).1.size = acc.1.size := by
  intro froms
  induction froms with
  | nil =>
    intro acc
    simp
  | cons fr rest ih =>
    intro acc
    have hstep :
        (addFromsStep acc fr).1.stream ++ (addFromsStep acc fr).1.buf
          = acc.1.stream ++ acc.1.buf ++ fr ∧
        (addFromsStep acc fr).1.size = acc.1.size := by
      rw [addFromsStep]
      by_cases hc : 20 * (acc.2 + 1) ≥ (acc.1.Add fr).size
      · rw [if_pos hc]
        have hw := Write_stream (acc.1.Add fr)
        constructor
        · rw [hw.1, hw.2]
          simp [AddressBuffer.Add]
        · have : ((acc.1.Add fr).Write).2.size = (acc.1.Add fr).size := by
            rw [AddressBuffer.Write]
            split <;> rfl
          rw [this]
          rfl
      · rw [if_neg hc]
        simp [AddressBuffer.Add]
    have := ih (addFromsStep acc fr)
    simp only [List.foldl_cons]
    refine ⟨?_, by rw [this.2, hstep.2]⟩
    rw [this.1, hstep.1]
    simp [List.flatten_cons]

theorem foldl_flushJob_stream :
    ∀ (jobs : List TxsFroms) (acc : AddressBuffer × Nat),
      ((jobs.foldl flushJob acc).1.stream ++ (jobs.foldl flushJob acc).1.buf
        = acc.1.stream ++ acc.1.buf ++ ((jobs.map fun j => j.froms.flatten).flatten)) ∧
      (jobs.foldl flushJob acc).1.size = acc.1.size := by
  intro jobs
  induction jobs with
  | nil =>
    intro acc
    simp
  | cons j rest ih =>
    intro acc
    have hstep := flushJob_froms_stream j.froms acc
    have := ih (flushJob acc j)
    simp only [List.foldl_cons]
    refine ⟨?_, by rw [this.2]; exact hstep.2⟩
    rw [this.1]
    rw [show flushJob acc j = j.froms.foldl addFromsStep acc from rfl]
    rw [hstep.1]
    simp [List.flatten_cons]

theorem tailFlush_stream :
    ∀ (jobs : List TxsFroms) (wb : AddressBuffer),
      (tailFlush wb jobs).stream ++ (tailFlush wb jobs).buf
        = wb.stream ++ wb.buf ++ ((jobs.map fun j => j.froms.flatten).flatten) := by
  intro jobs
  induction jobs with
  | nil =>
    intro wb
    simp [tailFlush]
  | cons j rest ih =>
    intro wb
    have hAdd := foldl_Add_spec j.froms wb
    have hW := Write_stream (j.froms.foldl AddressBuffer.Add wb)
    have hrec := ih (((j.froms.foldl AddressBuffer.Add wb).Write).2)
    rw [tailFlush] at hrec ⊢
    simp only [List.foldl_cons]
    rw [hrec, hW.1, hW.2, hAdd.1, hAdd.2.1]
    simp [List.flatten_cons]

theorem wodLoop_invariant (toSort firstBlock : Nat) :
    ∀ (input : List TxsFroms) (st : WodState),
      st.isFirst = false →
      st.currentBlock = firstBlock + st.flushed.length →
      (st.flushed.map fun x => x.blockNumber) = List.range' firstBlock st.flushed.length →
      st.flushed.length % toSort = 0 →
      List.Sorted (fun a b : TxsFroms => a.blockNumber ≤ b.blockNumber) st.buffer →
      (∀ x ∈ st.buffer, st.currentBlock ≤ x.blockNumber) →
      ((st.flushed.map fun x => x.blockNumber) ++ (st.buffer.map fun x => x.blockNumber)
        ++ (input.map fun x => x.blockNumber)).Nodup →
      (∀ x ∈ input, firstBlock ≤ x.blockNumber) →
      ((wodLoop toSort firstBlock input st).1.isFirst = false ∧
       (wodLoop toSort firstBlock input st).1.currentBlock
         = firstBlock + (wodLoop toSort firstBlock input st).1.flushed.length ∧
       ((wodLoop toSort firstBlock input st).1.flushed.map fun x => x.blockNumber)
         = List.range' firstBlock (wodLoop toSort firstBlock input st).1.flushed.length ∧
       (wodLoop toSort firstBlock input st).1.flushed.length % toSort = 0 ∧
       List.Sorted (fun a b : TxsFroms => a.blockNumber ≤ b.blockNumber)
         (wodLoop toSort firstBlock input st).1.buffer ∧
       (∀ x ∈ (wodLoop toSort firstBlock input st).1.buffer,
         (wodLoop toSort firstBlock input st).1.currentBlock ≤ x.blockNumber) ∧
       (((wodLoop toSort firstBlock input st).1.flushed.map fun x => x.blockNumber)
         ++ ((wodLoop toSort firstBlock input st).1.buffer.map fun x => x.blockNumber)).Nodup) := by
  intro input
  induction input with
  | nil =>
    intro st h1 h2 h3 h4 h5 h6 h7 h8
    simp only [wodLoop]
    refine ⟨h1, h2, h3, h4, h5, h6, ?_⟩
    have hsub : ((st.flushed.map fun x => x.blockNumber)
        ++ (st.buffer.map fun x => x.blockNumber)).Sublist
        (((st.flushed.map fun x => x.blockNumber) ++ (st.buffer.map fun x => x.blockNumber))
          ++ (([] : List TxsFroms).map fun x => x.blockNumber)) :=
      List.sublist_append_left _ _
    exact List.Nodup.sublist hsub h7
  | cons j rest ih =>
    intro st h1 h2 h3 h4 h5 h6 h7 h8
    simp only [wodLoop, h1, Bool.false_eq_true, if_false]
    -- isolate j's block number in the Nodup hypothesis
    have h7mid : (((st.flushed.map fun x => x.blockNumber)
        ++ (st.buffer.map fun x => x.blockNumber))
        ++ (j.blockNumber :: (rest.map fun x => x.blockNumber))).Nodup := by
      simpa only [List.map_cons] using h7
    have hmid := List.nodup_middle.mp h7mid
    rw [List.nodup_cons] at hmid
    obtain ⟨hjnm, hndFBR⟩ := hmid
    have hjF : j.blockNumber ∉ (st.flushed.map fun x => x.blockNumber) := by
      intro hmem
      exact hjnm (by simp [hmem])
    have hjfb : firstBlock ≤ j.blockNumber := h8 j (by simp)
    have hjcb : st.currentBlock ≤ j.blockNumber := by
      by_contra hlt
      push_neg at hlt
      apply hjF
      rw [h3, List.mem_range'_1]
      omega
    by_cases herr : j.err.isSome = true
    · rw [if_pos herr]
      refine ⟨h1, h2, h3, h4, h5, h6, ?_⟩
      exact List.Nodup.sublist (List.sublist_append_left _ _) hndFBR
    · rw [if_neg herr]
      have hperm : (sortBlocks (st.buffer ++ [j])).Perm (st.buffer ++ [j]) :=
        List.perm_insertionSort _ _
      have hpermBn : ((sortBlocks (st.buffer ++ [j])).map fun x => x.blockNumber).Perm
          ((st.buffer.map fun x => x.blockNumber) ++ [j.blockNumber]) := by
        have := hperm.map (fun x => x.blockNumber)
        simpa using this
      have hsorted' : List.Sorted (fun a b : TxsFroms => a.blockNumber ≤ b.blockNumber)
          (sortBlocks (st.buffer ++ [j])) := List.sorted_insertionSort _ _
      have hge' : ∀ x ∈ sortBlocks (st.buffer ++ [j]), st.currentBlock ≤ x.blockNumber := by
        intro x hx
        have hx' := hperm.mem_iff.mp hx
        rcases List.mem_append.mp hx' with hxl | hxr
        · exact h6 x hxl
        · simp at hxr
          rw [hxr]
          exact hjcb
      -- the Nodup fact with j moved from the input into the buffer
      have hndB'R : (((st.flushed.map fun x => x.blockNumber)
          ++ ((sortBlocks (st.buffer ++ [j])).map fun x => x.blockNumber))
          ++ (rest.map fun x => x.blockNumber)).Nodup := by
        have h0 : ((st.flushed.map fun x => x.blockNumber)
            ++ (st.buffer.map fun x => x.blockNumber))
            ++ (j.blockNumber :: (rest.map fun x => x.blockNumber))
            = ((st.flushed.map fun x => x.blockNumber)
              ++ ((st.buffer.map fun x => x.blockNumber) ++ [j.blockNumber]))
              ++ (rest.map fun x => x.blockNumber) := by
          simp
        have hp : (((st.flushed.map fun x => x.blockNumber)
            ++ ((st.buffer.map fun x => x.blockNumber) ++ [j.blockNumber]))
            ++ (rest.map fun x => x.blockNumber)).Perm
            (((st.flushed.map fun x => x.blockNumber)
              ++ ((sortBlocks (st.buffer ++ [j])).map fun x => x.blockNumber))
              ++ (rest.map fun x => x.blockNumber)) :=
          List.Perm.append_right _ (List.Perm.append_left _ hpermBn.symm)
        exact hp.nodup (h0 ▸ h7mid)
      by_cases hrow : hasRowCheck st.currentBlock toSort (sortBlocks (st.buffer ++ [j])) = true
      · rw [if_pos hrow]
        obtain ⟨hlenB, hpos⟩ := hasRowCheck_spec hrow
        have htake_len : ((sortBlocks (st.buffer ++ [j])).take toSort).length = toSort := by
          rw [List.length_take]
          omega
        have hmaprange : (((sortBlocks (st.buffer ++ [j])).take toSort).map
            fun x => x.blockNumber) = List.range' st.currentBlock toSort :=
          map_bn_take_range _ st.currentBlock toSort hlenB hpos
        have hndB' : ((sortBlocks (st.buffer ++ [j])).map fun x => x.blockNumber).Nodup := by
          have hsub : ((sortBlocks (st.buffer ++ [j])).map fun x => x.blockNumber).Sublist
              (((st.flushed.map fun x => x.blockNumber)
                ++ ((sortBlocks (st.buffer ++ [j])).map fun x => x.blockNumber))
                ++ (rest.map fun x => x.blockNumber)) :=
            (List.sublist_append_right _ _).trans (List.sublist_append_left _ _)
          exact List.Nodup.sublist hsub hndB'R
        refine ih _ rfl ?_ ?_ ?_ ?_ ?_ ?_ ?_
        · -- currentBlock bookkeeping
          simp only [List.length_append, htake_len]
          omega
        · -- flushed is exactly the contiguous range from firstBlock
          simp only [List.map_append, hmaprange, h3, List.length_append, htake_len]
          rw [h2]
          have hr := List.range'_append firstBlock st.flushed.length toSort 1
          simp only [one_mul] at hr
          rw [hr]
          congr 1
          omega
        · -- flushed length stays a multiple of the window
          simp only [List.length_append, htake_len]
          rw [Nat.add_mod_right]
          exact h4
        · -- the remaining buffer is still sorted
          exact List.Pairwise.sublist (List.drop_sublist _ _) hsorted'
        · -- the remaining buffer sits at or beyond the new flush pointer
          intro x hx
          cases Nat.eq_zero_or_pos toSort with
          | inl h0 =>
            subst h0
            simp only [List.drop_zero] at hx
            simpa using hge' x hx
          | inr hpos' =>
            exact drop_bound_of_sorted hsorted' hndB' hpos' hlenB hpos x hx
        · -- Nodup for the recursive call
          have hTD : (((sortBlocks (st.buffer ++ [j])).take toSort).map fun x => x.blockNumber)
              ++ (((sortBlocks (st.buffer ++ [j])).drop toSort).map fun x => x.blockNumber)
              = ((sortBlocks (st.buffer ++ [j])).map fun x => x.blockNumber) := by
            rw [← List.map_append, List.take_append_drop]
          have heq : (((st.flushed ++ (sortBlocks (st.buffer ++ [j])).take toSort).map
              fun x => x.blockNumber)
              ++ (((sortBlocks (st.buffer ++ [j])).drop toSort).map fun x => x.blockNumber))
              ++ (rest.map fun x => x.blockNumber)
              = (((st.flushed.map fun x => x.blockNumber)
                ++ ((sortBlocks (st.buffer ++ [j])).map fun x => x.blockNumber))
                ++ (rest.map fun x => x.blockNumber)) := by
            rw [List.map_append, ← hTD]
            simp
          rw [heq]
          exact hndB'R
        · intro x hx
          exact h8 x (by simp [hx])
      · rw [if_neg hrow]
        exact ih _ rfl h2 h3 h4 hsorted' hge' hndB'R (fun x hx => h8 x (by simp [hx]))

theorem wodLoop_stream (toSort firstBlock : Nat) :
    ∀ (input : List TxsFroms) (st : WodState),
      ∃ suffix : List TxsFroms,
        (wodLoop toSort firstBlock input st).1.flushed = st.flushed ++ suffix ∧
        (wodLoop toSort firstBlock input st).1.wb.stream
            ++ (wodLoop toSort firstBlock input st).1.wb.buf
          = st.wb.stream ++ st.wb.buf ++ ((suffix.map fun x => x.froms.flatten).flatten) := by
  intro input
  induction input with
  | nil =>
    intro st
    exact ⟨[], by simp [wodLoop], by simp [wodLoop]⟩
  | cons j rest ih =>
    intro st
    simp only [wodLoop]
    by_cases hf : st.isFirst = true
    all_goals simp only [hf, Bool.false_eq_true, if_true, if_false]
    case pos =>
      by_cases herr : j.err.isSome = true
      · rw [if_pos herr]
        exact ⟨[], by simp, by simp⟩
      · rw [if_neg herr]
        by_cases hrow : hasRowCheck firstBlock toSort (sortBlocks (st.buffer ++ [j])) = true
        · rw [if_pos hrow]
          obtain ⟨s₂, hf₂, hs₂⟩ := ih
            { buffer := List.drop toSort (sortBlocks (st.buffer ++ [j])),
              flushed := st.flushed ++ List.take toSort (sortBlocks (st.buffer ++ [j])),
              currentBlock := firstBlock + toSort, isFirst := false,
              wb := (List.foldl flushJob (st.wb, st.n)
                (List.take toSort (sortBlocks (st.buffer ++ [j])))).1,
              n := (List.foldl flushJob (st.wb, st.n)
                (List.take toSort (sortBlocks (st.buffer ++ [j])))).2 }
          refine ⟨List.take toSort (sortBlocks (st.buffer ++ [j])) ++ s₂, ?_, ?_⟩
          · rw [hf₂]
            simp
          · rw [hs₂]
            have hfj := foldl_flushJob_stream (List.take toSort (sortBlocks (st.buffer ++ [j])))
              (st.wb, st.n)
            simp only at hfj ⊢
            rw [hfj.1]
            simp [List.flatten_append, List.map_append, List.append_assoc]
        · rw [if_neg hrow]
          obtain ⟨s₂, hf₂, hs₂⟩ := ih
            { buffer := sortBlocks (st.buffer ++ [j]), flushed := st.flushed,
              currentBlock := firstBlock, isFirst := false, wb := st.wb, n := st.n }
          exact ⟨s₂, by simpa using hf₂, by simpa using hs₂⟩
    case neg =>
      by_cases herr : j.err.isSome = true
      · rw [if_pos herr]
        exact ⟨[], by simp, by simp⟩
      · rw [if_neg herr]
        by_cases hrow : hasRowCheck st.currentBlock toSort
            (sortBlocks (st.buffer ++ [j])) = true
        · rw [if_pos hrow]
          obtain ⟨s₂, hf₂, hs₂⟩ := ih
            { buffer := List.drop toSort (sortBlocks (st.buffer ++ [j])),
              flushed := st.flushed ++ List.take toSort (sortBlocks (st.buffer ++ [j])),
              currentBlock := st.currentBlock + toSort, isFirst := false,
              wb := (List.foldl flushJob (st.wb, st.n)
                (List.take toSort (sortBlocks (st.buffer ++ [j])))).1,
              n := (List.foldl flushJob (st.wb, st.n)
                (List.take toSort (sortBlocks (st.buffer ++ [j])))).2 }
          refine ⟨List.take toSort (sortBlocks (st.buffer ++ [j])) ++ s₂, ?_, ?_⟩
          · rw [hf₂]
            simp
          · rw [hs₂]
            have hfj := foldl_flushJob_stream (List.take toSort (sortBlocks (st.buffer ++ [j])))
              (st.wb, st.n)
            simp only at hfj ⊢
            rw [hfj.1]
            simp [List.flatten_append, List.map_append, List.append_assoc]
        · rw [if_neg hrow]
          obtain ⟨s₂, hf₂, hs₂⟩ := ih
            { buffer := sortBlocks (st.buffer ++ [j]), flushed := st.flushed,
              currentBlock := st.currentBlock, isFirst := false, wb := st.wb, n := st.n }
          exact ⟨s₂, by simpa using hf₂, by simpa using hs₂⟩

theorem wodLoop_first_step (toSort firstBlock : Nat) (j : TxsFroms) (rest : List TxsFroms)
    (st : WodState) (h : st.isFirst = true) :
    wodLoop toSort firstBlock (j :: rest) st
      = wodLoop toSort firstBlock (j :: rest)
          { st with currentBlock := firstBlock, isFirst := false } := by
  conv_lhs => rw [wodLoop]
  conv_rhs => rw [wodLoop]
  simp [h]

/-- C2: with pairwise-distinct incoming block numbers all at or above the
first block, the loop of `writeOnDiskBatch` flushes exactly a gap-free run
of consecutive block numbers starting at `firstBlock`, always in whole
windows of `toSort = 1000`; the remaining results leave only in the final
tail flush, which is sorted and strictly beyond every looped flush — so the
spill byte stream is exactly the concatenation of the results' addresses in
strictly increasing block order, a partial window appearing only at the
tail. -/
theorem c2_reorder_gap_safety (firstBlock : Nat) (input : List TxsFroms)
    (wb0 : AddressBuffer)
    (hnd : (input.map fun x => x.blockNumber).Nodup)
    (hge : ∀ x ∈ input, firstBlock ≤ x.blockNumber)
    (hbuf0 : wb0.buf = []) :
    ((writeOnDiskBatch firstBlock input wb0).final.flushed.map fun x => x.blockNumber)
      = List.range' firstBlock (writeOnDiskBatch firstBlock input wb0).final.flushed.length ∧
    (writeOnDiskBatch firstBlock input wb0).final.flushed.length % 1000 = 0 ∧
    List.Sorted (fun a b : Nat => a < b)
      (((writeOnDiskBatch firstBlock input wb0).final.flushed
        ++ (writeOnDiskBatch firstBlock input wb0).tail).map fun x => x.blockNumber) ∧
    (writeOnDiskBatch firstBlock input wb0).wb.stream
      = wb0.stream ++ ((((writeOnDiskBatch firstBlock input wb0).final.flushed
        ++ (writeOnDiskBatch firstBlock input wb0).tail).map
          fun x => x.froms.flatten).flatten) := by
  simp only [writeOnDiskBatch]
  cases input with
  | nil =>
    simp only [wodLoop]
    refine ⟨by simp, by simp, by simp [sortBlocks], ?_⟩
    have hW := Write_stream (tailFlush wb0 (sortBlocks []))
    simp only [sortBlocks, List.insertionSort, tailFlush, List.foldl_nil] at hW ⊢
    rw [hW.1, hbuf0]
    simp
  | cons j rest =>
    rw [wodLoop_first_step 1000 firstBlock j rest _ rfl]
    have inv := wodLoop_invariant 1000 firstBlock (j :: rest)
      { buffer := [], flushed := [], currentBlock := firstBlock, isFirst := false,
        wb := wb0, n := 0 }
      rfl (by simp) (by simp) (by simp) (by simp) (by simp)
      (by simpa using hnd) hge
    obtain ⟨s₀, hfl₀, hs₀⟩ := wodLoop_stream 1000 firstBlock (j :: rest)
      { buffer := [], flushed := [], currentBlock := firstBlock, isFirst := false,
        wb := wb0, n := 0 }
    obtain ⟨i1, i2, i3, i4, i5, i6, i7⟩ := inv
    have hsuffix : s₀ = (wodLoop 1000 firstBlock (j :: rest)
        { buffer := [], flushed := [], currentBlock := firstBlock, isFirst := false,
          wb := wb0, n := 0 }).1.flushed := by
      simpa using hfl₀.symm
    subst hsuffix
    refine ⟨i3, i4, ?_, ?_⟩
    · -- strict global ordering of looped flushes followed by the tail
      have hsortT : List.Sorted (fun a b : TxsFroms => a.blockNumber ≤ b.blockNumber)
          (sortBlocks (wodLoop 1000 firstBlock (j :: rest)
            { buffer := [], flushed := [], currentBlock := firstBlock, isFirst := false,
              wb := wb0, n := 0 }).1.buffer) := List.sorted_insertionSort _ _
      have hpermT : (sortBlocks (wodLoop 1000 firstBlock (j :: rest)
          { buffer := [], flushed := [], currentBlock := firstBlock, isFirst := false,
            wb := wb0, n := 0 }).1.buffer).Perm
          (wodLoop 1000 firstBlock (j :: rest)
            { buffer := [], flushed := [], currentBlock := firstBlock, isFirst := false,
              wb := wb0, n := 0 }).1.buffer := List.perm_insertionSort _ _
      have hndB : ((wodLoop 1000 firstBlock (j :: rest)
          { buffer := [], flushed := [], currentBlock := firstBlock, isFirst := false,
            wb := wb0, n := 0 }).1.buffer.map fun x => x.blockNumber).Nodup :=
        List.Nodup.sublist (List.sublist_append_right _ _) i7
      have hndT : ((sortBlocks (wodLoop 1000 firstBlock (j :: rest)
          { buffer := [], flushed := [], currentBlock := firstBlock, isFirst := false,
            wb := wb0, n := 0 }).1.buffer).map fun x => x.blockNumber).Nodup :=
        ((hpermT.map _).symm).nodup hndB
      rw [List.map_append]
      apply List.pairwise_append.mpr
      refine ⟨?_, ?_, ?_⟩
      · rw [i3]
        exact List.pairwise_lt_range' _ _
      · have hle : List.Pairwise (fun a b : Nat => a ≤ b)
            ((sortBlocks (wodLoop 1000 firstBlock (j :: rest)
              { buffer := [], flushed := [], currentBlock := firstBlock, isFirst := false,
                wb := wb0, n := 0 }).1.buffer).map fun x => x.blockNumber) := by
          rw [List.pairwise_map]
          exact hsortT
        exact (hle.and hndT).imp (fun h => lt_of_le_of_ne h.1 h.2)
      · intro a ha b hb
        rw [i3, List.mem_range'_1] at ha
        obtain ⟨x, hxmem, rfl⟩ := List.mem_map.mp hb
        have hxbuf := hpermT.mem_iff.mp hxmem
        have hxge := i6 x hxbuf
        omega
    · -- the spill stream is exactly the flushed-then-tail bytes
      have hW := Write_stream (tailFlush (wodLoop 1000 firstBlock (j :: rest)
        { buffer := [], flushed := [], currentBlock := firstBlock, isFirst := false,
          wb := wb0, n := 0 }).1.wb
        (sortBlocks (wodLoop 1000 firstBlock (j :: rest)
          { buffer := [], flushed := [], currentBlock := firstBlock, isFirst := false,
            wb := wb0, n := 0 }).1.buffer))
      have hT := tailFlush_stream (sortBlocks (wodLoop 1000 firstBlock (j :: rest)
          { buffer := [], flushed := [], currentBlock := firstBlock, isFirst := false,
            wb := wb0, n := 0 }).1.buffer)
        (wodLoop 1000 firstBlock (j :: rest)
          { buffer := [], flushed := [], currentBlock := firstBlock, isFirst := false,
            wb := wb0, n := 0 }).1.wb
      simp only at hW hT hs₀ ⊢
      rw [hW.1, hT]
      rw [hs₀]
      simp [hbuf0, List.map_append, List.flatten_append, List.append_assoc]

/-- Witness for C2 at a one-result input. -/
theorem c2_reorder_gap_safety_witness :
    ((writeOnDiskBatch 5 [⟨5, [List.replicate 20 1], none⟩]
        (NewAddressBuffer [] 8 true)).final.flushed.map fun x => x.blockNumber)
      = List.range' 5 (writeOnDiskBatch 5 [⟨5, [List.replicate 20 1], none⟩]
        (NewAddressBuffer [] 8 true)).final.flushed.length ∧
    (writeOnDiskBatch 5 [⟨5, [List.replicate 20 1], none⟩]
        (NewAddressBuffer [] 8 true)).final.flushed.length % 1000 = 0 ∧
    List.Sorted (fun a b : Nat => a < b)
      (((writeOnDiskBatch 5 [⟨5, [List.replicate 20 1], none⟩]
        (NewAddressBuffer [] 8 true)).final.flushed
        ++ (writeOnDiskBatch 5 [⟨5, [List.replicate 20 1], none⟩]
          (NewAddressBuffer [] 8 true)).tail).map fun x => x.blockNumber) ∧
    (writeOnDiskBatch 5 [⟨5, [List.replicate 20 1], none⟩]
        (NewAddressBuffer [] 8 true)).wb.stream
      = (NewAddressBuffer [] 8 true).stream
        ++ ((((writeOnDiskBatch 5 [⟨5, [List.replicate 20 1], none⟩]
          (NewAddressBuffer [] 8 true)).final.flushed
          ++ (writeOnDiskBatch 5 [⟨5, [List.replicate 20 1], none⟩]
            (NewAddressBuffer [] 8 true)).tail).map fun x => x.froms.flatten).flatten) :=
  c2_reorder_gap_safety 5 [⟨5, [List.replicate 20 1], none⟩] (NewAddressBuffer [] 8 true)
    (by decide) (by decide) (by decide)

/-!
## The apply pass (`writeBatchFromDisk`) and the body producer

Blocks and bodies live in external collaborators, modelled as the functions
`readCanonicalHash` (`none` models the empty hash) and `readBody`.  The
storage layer's batch accounting is modelled by a size function on bodies
and the ideal batch size; `progressSaves` records, in order, the values
passed to `s.Update` (the persisted progress cursor).  Loops are given fuel.
-/

/-- A transaction as the apply pass sees it: its recovered sender field. -/
structure Tx where
  sender : Option (List Nat)
deriving Repr, DecidableEq

/-- `tx.SetFrom(addr)`. -/
def Tx.SetFrom (tx : Tx) (addr : List Nat) : Tx := { tx with sender := some addr }

/-- A block body. -/
structure Body where
  Transactions : List Tx
deriving Repr, DecidableEq

/-- `getBlockBody`: read the canonical hash (absent hash is the empty hash);
if absent, no job; read the body for the hash; if absent, no job; otherwise
the job.  (The block-number-bound signer is omitted: the passes modelled
here never use it.) -/
def getBlockBody (readCanonicalHash : Nat → Option Nat) (readBody : Nat → Nat → Option Body)
    (nextBlockNumber : Nat) : Option (Nat × Body) :=
  match readCanonicalHash nextBlockNumber with
  | none => none
  | some hash =>
    match readBody hash nextBlockNumber with
    | none => none
    | some body => some (hash, body)

/-- The per-transaction loop of `writeBatchFromDisk`:
`Transactions[i].SetFrom(addr_i)`, in order. -/
def setSenders (txs : List Tx) (addrs : List (List Nat)) : List Tx :=
  List.zipWith Tx.SetFrom txs addrs

/-- State of the apply pass: the read-mode spill buffer, the open mutation
batch (its written bodies as (hash, blockNumber, body) and the storage
layer's batch size), the committed batches, and the `s.Update` values. -/
structure ApplyState where
  abuf : AddressBuffer
  batch : List (Nat × Nat × Body)
  batchSize : Nat
  committed : List (List (Nat × Nat × Body))
  progressSaves : List Nat
deriving Repr, DecidableEq

/-- `writeBatchFromDisk`: read bodies in block order; for each body pull one
address per transaction from the spill buffer (an error aborts the run);
write the mutated body into the batch; when the batch size reaches the ideal
batch size, persist the cursor as the already-incremented `nextBlockNumber`,
commit the batch, and start a fresh one.  `none` means the fuel ran out. -/
def writeBatchFromDisk (rch : Nat → Option Nat) (rb : Nat → Nat → Option Body)
    (sizeFn : Body → Nat) (idealBatchSize : Nat) :
    Nat → Nat → ApplyState → Option (Except NextErr ApplyState)
  | 0, _, _ => none
  | fuel + 1, nextBlockNumber, st =>
    match getBlockBody rch rb nextBlockNumber with
    | none => some (.ok st)
    | some (hash, body) =>
      let nbn := nextBlockNumber + 1
      match st.abuf.nextN body.Transactions.length with
      | (.error e, _) => some (.error e)
      | (.ok addrs, buf') =>
        let body' : Body := ⟨setSenders body.Transactions addrs⟩
        let st1 : ApplyState :=
          { st with abuf := buf',
                    batch := st.batch ++ [(hash, nextBlockNumber, body')],
                    batchSize := st.batchSize + sizeFn body' }
        if st1.batchSize ≥ idealBatchSize then
          writeBatchFromDisk rch rb sizeFn idealBatchSize fuel nbn
            { st1 with progressSaves := st1.progressSaves ++ [nbn],
                       committed := st1.committed ++ [st1.batch],
                       batch := [], batchSize := 0 }
        else
          writeBatchFromDisk rch rb sizeFn idealBatchSize fuel nbn st1

/-- The producer goroutine loop of `spawnRecoverSendersStage`: emit one job
per block, in block order, until `getBlockBody` yields no job (cancellation
is not modelled). -/
def producerLoop (rch : Nat → Option Nat) (rb : Nat → Nat → Option Body) :
    Nat → Nat → List (Nat × Nat × Body) → Option (List (Nat × Nat × Body))
  | 0, _, _ => none
  | fuel + 1, nextBlockNumber, acc =>
    match getBlockBody rch rb nextBlockNumber with
    | none => some acc
    | some (hash, body) =>
      producerLoop rch rb fuel (nextBlockNumber + 1) (acc ++ [(hash, nextBlockNumber, body)])

/-- Specification helper: the jobs numbered consecutively from `s`. -/
def numberJobs : List (Nat × Body) → Nat → List (Nat × Nat × Body)
  | [], _ => []
  | (h, b) :: rest, s => (h, s, b) :: numberJobs rest (s + 1)

/-- Specification helper: total number of transactions over the jobs. -/
def txTotal (jobs : List (Nat × Body)) : Nat :=
  (jobs.map fun jb => jb.2.Transactions.length).sum

/-- Specification helper: the body writes the apply pass must produce —
one write per job in block order, each body consuming exactly its
transaction count of addresses from the spill sequence, in order. -/
def expectedWrites : List (Nat × Body) → Nat → List (List Nat) → List (Nat × Nat × Body)
  | [], _, _ => []
  | (h, b) :: rest, start, addrs =>
    (h, start, ⟨setSenders b.Transactions (addrs.take b.Transactions.length)⟩)
      :: expectedWrites rest (start + 1) (addrs.drop b.Transactions.length)

/-- The storage layer's batch size of a batch under the size function. -/
def batchSum (sizeFn : Body → Nat) (batch : List (Nat × Nat × Body)) : Nat :=
  (batch.map fun w => sizeFn w.2.2).sum

/-- Every committed batch was committed exactly when it reached the ideal
batch size, and the cursor persisted with it is the successor of the block
number of the batch's last written block. -/
def commitAligned (sizeFn : Body → Nat) (ideal : Nat) (st : ApplyState) : Prop :=
  List.Forall₂
    (fun b save => ∃ pre last, b = pre ++ [last] ∧ save = last.2.1 + 1 ∧
      ideal ≤ batchSum sizeFn b)
    st.committed st.progressSaves

theorem applyRun_spec (rch : Nat → Option Nat) (rb : Nat → Nat → Option Body)
    (sizeFn : Body → Nat) (ideal : Nat) (size : Nat) (hsize : 1 ≤ size) :
    ∀ (jobs : List (Nat × Body)) (start fuel : Nat) (st : ApplyState)
      (addrs pending future : List (List Nat)),
      (∀ i (hi : i < jobs.length), getBlockBody rch rb (start + i) = some (jobs.get ⟨i, hi⟩)) →
      getBlockBody rch rb (start + jobs.length) = none →
      jobs.length < fuel →
      pending ++ future = addrs → Addrs addrs → Good size st.abuf pending future →
      txTotal jobs ≤ addrs.length →
      st.batchSize = batchSum sizeFn st.batch →
      commitAligned sizeFn ideal st →
      ∃ stF, writeBatchFromDisk rch rb sizeFn ideal fuel start st = some (.ok stF) ∧
        stF.committed.flatten ++ stF.batch
          = st.committed.flatten ++ st.batch ++ expectedWrites jobs start addrs ∧
        commitAligned sizeFn ideal stF := by
  intro jobs
  induction jobs with
  | nil =>
    intro start fuel st addrs pending future hjobs hstop hfuel hpf h20 hg htot hsum halign
    cases fuel with
    | zero => omega
    | succ f =>
      simp only [List.length_nil, Nat.add_zero] at hstop
      refine ⟨st, ?_, by simp [expectedWrites], halign⟩
      rw [writeBatchFromDisk, hstop]
  | cons jb rest ih =>
    obtain ⟨h, b⟩ := jb
    intro start fuel st addrs pending future hjobs hstop hfuel hpf h20 hg htot hsum halign
    cases fuel with
    | zero => simp at hfuel
    | succ f =>
      have hj0 : getBlockBody rch rb start = some (h, b) := by
        have := hjobs 0 (by simp)
        simpa using this
      have htcount : txTotal ((h, b) :: rest) = b.Transactions.length + txTotal rest := by
        simp [txTotal]
      have ht : b.Transactions.length ≤ addrs.length := by omega
      obtain ⟨s', p', f', hrun, hpf', hg'⟩ :=
        nextN_good hsize b.Transactions.length addrs pending future st.abuf hpf h20 hg ht
      have h20' : Addrs (addrs.drop b.Transactions.length) := by
        intro x hx
        exact h20 x (List.mem_of_mem_drop hx)
      have hjobs' : ∀ i (hi : i < rest.length),
          getBlockBody rch rb (start + 1 + i) = some (rest.get ⟨i, hi⟩) := by
        intro i hi
        have hlt : i + 1 < ((h, b) :: rest).length := by simpa using Nat.succ_lt_succ hi
        have := hjobs (i + 1) hlt
        rw [show start + (i + 1) = start + 1 + i from by omega] at this
        simpa using this
      have hstop' : getBlockBody rch rb (start + 1 + rest.length) = none := by
        simp only [List.length_cons] at hstop
        rw [show start + 1 + rest.length = start + (rest.length + 1) from by omega]
        exact hstop
      have hfuel' : rest.length < f := by
        simp only [List.length_cons] at hfuel
        omega
      have htot' : txTotal rest ≤ (addrs.drop b.Transactions.length).length := by
        rw [List.length_drop]
        omega
      rw [writeBatchFromDisk]
      simp only [hj0, hrun]
      by_cases hcommit : st.batchSize
          + sizeFn ⟨setSenders b.Transactions (addrs.take b.Transactions.length)⟩ ≥ ideal
      · rw [if_pos hcommit]
        have halign3 : commitAligned sizeFn ideal
            { abuf := s',
              batch := [], batchSize := 0,
              committed := st.committed
                ++ [st.batch ++ [(h, start,
                     ⟨setSenders b.Transactions (addrs.take b.Transactions.length)⟩)]],
              progressSaves := st.progressSaves ++ [start + 1] } := by
          refine List.rel_append halign (List.forall₂_cons.mpr ⟨?_, List.Forall₂.nil⟩)
          refine ⟨st.batch, (h, start,
            ⟨setSenders b.Transactions (addrs.take b.Transactions.length)⟩), rfl, rfl, ?_⟩
          have hbs : batchSum sizeFn (st.batch ++ [(h, start,
              ⟨setSenders b.Transactions (addrs.take b.Transactions.length)⟩)])
              = batchSum sizeFn st.batch
                + sizeFn ⟨setSenders b.Transactions (addrs.take b.Transactions.length)⟩ := by
            simp [batchSum]
          rw [hbs, ← hsum]
          exact hcommit
        obtain ⟨stF, hrunF, hwrites, halignF⟩ := ih (start + 1) f
          { abuf := s',
            batch := [], batchSize := 0,
            committed := st.committed
              ++ [st.batch ++ [(h, start,
                   ⟨setSenders b.Transactions (addrs.take b.Transactions.length)⟩)]],
            progressSaves := st.progressSaves ++ [start + 1] }
          (addrs.drop b.Transactions.length) p' f'
          hjobs' hstop' hfuel' hpf' h20' hg' htot' (by simp [batchSum]) halign3
        refine ⟨stF, hrunF, ?_, halignF⟩
        rw [hwrites]
        simp [expectedWrites, List.flatten_append, List.append_assoc]
      · rw [if_neg hcommit]
        obtain ⟨stF, hrunF, hwrites, halignF⟩ := ih (start + 1) f
          { abuf := s',
            batch := st.batch ++ [(h, start,
              ⟨setSenders b.Transactions (addrs.take b.Transactions.length)⟩)],
            batchSize := st.batchSize
              + sizeFn ⟨setSenders b.Transactions (addrs.take b.Transactions.length)⟩,
            committed := st.committed, progressSaves := st.progressSaves }
          (addrs.drop b.Transactions.length) p' f'
          hjobs' hstop' hfuel' hpf' h20' hg' htot' (by simp [batchSum, hsum]) halign
        refine ⟨stF, hrunF, ?_, halignF⟩
        rw [hwrites]
        simp [expectedWrites, List.append_assoc]

theorem producerLoop_spec (rch : Nat → Option Nat) (rb : Nat → Nat → Option Body) :
    ∀ (jobs : List (Nat × Body)) (start fuel : Nat) (acc : List (Nat × Nat × Body)),
      (∀ i (hi : i < jobs.length), getBlockBody rch rb (start + i) = some (jobs.get ⟨i, hi⟩)) →
      getBlockBody rch rb (start + jobs.length) = none →
      jobs.length < fuel →
      producerLoop rch rb fuel start acc = some (acc ++ numberJobs jobs start) := by
  intro jobs
  induction jobs with
  | nil =>
    intro start fuel acc hjobs hstop hfuel
    cases fuel with
    | zero => omega
    | succ f =>
      simp only [List.length_nil, Nat.add_zero] at hstop
      rw [producerLoop, hstop]
      simp [numberJobs]
  | cons jb rest ih =>
    obtain ⟨h, b⟩ := jb
    intro start fuel acc hjobs hstop hfuel
    cases fuel with
    | zero => simp at hfuel
    | succ f =>
      have hj0 : getBlockBody rch rb start = some (h, b) := by
        have := hjobs 0 (by simp)
        simpa using this
      have hjobs' : ∀ i (hi : i < rest.length),
          getBlockBody rch rb (start + 1 + i) = some (rest.get ⟨i, hi⟩) := by
        intro i hi
        have hlt : i + 1 < ((h, b) :: rest).length := by simpa using Nat.succ_lt_succ hi
        have := hjobs (i + 1) hlt
        rw [show start + (i + 1) = start + 1 + i from by omega] at this
        simpa using this
      have hstop' : getBlockBody rch rb (start + 1 + rest.length) = none := by
        simp only [List.length_cons] at hstop
        rw [show start + 1 + rest.length = start + (rest.length + 1) from by omega]
        exact hstop
      have hfuel' : rest.length < f := by
        simp only [List.length_cons] at hfuel
        omega
      rw [producerLoop]
      simp only [hj0]
      rw [ih (start + 1) f (acc ++ [(h, start, b)]) hjobs' hstop' hfuel']
      simp [numberJobs, List.append_assoc]

/-- C5 (amended): in the Apply pass, each body consumes exactly as many
addresses from the spill buffer as it has transactions, assigned in order —
the writes are exactly one per block, in block order, with senders set to
consecutive slices of the spill sequence; whenever the batch size reaches
the storage layer's ideal batch size the batch is committed and a fresh
batch is started, and the progress cursor persisted with each commit equals
the successor of the block number of the last block just committed (the
already-incremented `nextBlockNumber`), not that block number itself. -/
theorem c5_apply_commit_spec (rch : Nat → Option Nat) (rb : Nat → Nat → Option Body)
    (sizeFn : Body → Nat) (ideal size : Nat) (hsize : 1 ≤ size)
    (jobs : List (Nat × Body)) (start fuel : Nat) (addrs : List (List Nat))
    (hjobs : ∀ i (hi : i < jobs.length),
      getBlockBody rch rb (start + i) = some (jobs.get ⟨i, hi⟩))
    (hstop : getBlockBody rch rb (start + jobs.length) = none)
    (hfuel : jobs.length < fuel)
    (h20 : Addrs addrs)
    (htot : txTotal jobs ≤ addrs.length) :
    ∃ stF, writeBatchFromDisk rch rb sizeFn ideal fuel start
        { abuf := NewAddressBuffer addrs.flatten size false, batch := [], batchSize := 0,
          committed := [], progressSaves := [] } = some (.ok stF) ∧
      stF.committed.flatten ++ stF.batch = expectedWrites jobs start addrs ∧
      commitAligned sizeFn ideal stF := by
  obtain ⟨stF, h1, h2, h3⟩ := applyRun_spec rch rb sizeFn ideal size hsize jobs start fuel
    { abuf := NewAddressBuffer addrs.flatten size false, batch := [], batchSize := 0,
      committed := [], progressSaves := [] }
    addrs [] addrs hjobs hstop hfuel (by simp) h20
    (by refine ⟨?_, ?_, Or.inl ⟨?_, rfl⟩⟩ <;> simp [NewAddressBuffer])
    htot (by simp [batchSum]) List.Forall₂.nil
  exact ⟨stF, h1, by simpa using h2, h3⟩

/-- Counterexample to C5 as stated: a concrete run with one block (number 1,
one transaction) and ideal batch size 1.  The single commit contains exactly
block 1, yet the progress cursor persisted at that commit is 2 — the
successor of the last committed block, not the block number itself. -/
theorem c5_cursor_counterexample :
    ((writeBatchFromDisk (fun n => if n = 1 then some 7 else none)
        (fun hs n => if hs = 7 ∧ n = 1 then some ⟨[⟨none⟩]⟩ else none)
        (fun _ => 1) 1 2 1
        { abuf := NewAddressBuffer (List.replicate 20 9) 1 false, batch := [],
          batchSize := 0, committed := [], progressSaves := [] }).map
      (fun r => match r with
        | .ok stF => some (stF.progressSaves,
            stF.committed.map (fun bt => bt.map fun w => w.2.1))
        | .error _ => none))
      = some (some ([2], [[1]])) ∧ (2 : Nat) ≠ 1 := by
  exact ⟨by decide, by decide⟩

/-- Witness for C5 (amended) at a concrete one-block chain. -/
theorem c5_apply_commit_spec_witness :
    ∃ stF, writeBatchFromDisk (fun n => if n = 1 then some 7 else none)
        (fun hs n => if hs = 7 ∧ n = 1 then some ⟨[⟨none⟩]⟩ else none)
        (fun _ => 1) 1 2 1
        { abuf := NewAddressBuffer ([List.replicate 20 9] : List (List Nat)).flatten 1 false,
          batch := [], batchSize := 0, committed := [], progressSaves := [] }
        = some (.ok stF) ∧
      stF.committed.flatten ++ stF.batch
        = expectedWrites [(7, ⟨[⟨none⟩]⟩)] 1 [List.replicate 20 9] ∧
      commitAligned (fun _ => 1) 1 stF := by
  refine c5_apply_commit_spec (fun n => if n = 1 then some 7 else none)
    (fun hs n => if hs = 7 ∧ n = 1 then some ⟨[⟨none⟩]⟩ else none)
    (fun _ => 1) 1 1 (by omega) [(7, ⟨[⟨none⟩]⟩)] 1 2 [List.replicate 20 9]
    ?_ (by decide) (by simp)
    (by intro x hx; simp only [List.mem_singleton] at hx; subst hx; simp)
    (by decide)
  intro i hi
  have h0 : i = 0 := by
    simp at hi
    omega
  subst h0
  rfl

/-- C8: an absent canonical hash, or an absent body for the canonical hash,
makes `getBlockBody` return no job; and with jobs present exactly for the
blocks before the first absence, both the producer loop and the apply loop
terminate normally — the producer returns exactly those jobs with no error,
and the apply loop returns `ok` (no error) given a well-formed spill stream
holding at least one address per transaction. -/
theorem c8_absence_is_termination (rch : Nat → Option Nat) (rb : Nat → Nat → Option Body)
    (sizeFn : Body → Nat) (ideal size : Nat) (hsize : 1 ≤ size) :
    (∀ n, rch n = none → getBlockBody rch rb n = none) ∧
    (∀ n hs, rch n = some hs → rb hs n = none → getBlockBody rch rb n = none) ∧
    (∀ (jobs : List (Nat × Body)) (start fuel : Nat),
      (∀ i (hi : i < jobs.length), getBlockBody rch rb (start + i) = some (jobs.get ⟨i, hi⟩)) →
      getBlockBody rch rb (start + jobs.length) = none →
      jobs.length < fuel →
      producerLoop rch rb fuel start [] = some (numberJobs jobs start)) ∧
    (∀ (jobs : List (Nat × Body)) (start fuel : Nat) (addrs : List (List Nat)),
      (∀ i (hi : i < jobs.length), getBlockBody rch rb (start + i) = some (jobs.get ⟨i, hi⟩)) →
      getBlockBody rch rb (start + jobs.length) = none →
      jobs.length < fuel → Addrs addrs → txTotal jobs ≤ addrs.length →
      ∃ stF, writeBatchFromDisk rch rb sizeFn ideal fuel start
          { abuf := NewAddressBuffer addrs.flatten size false, batch := [], batchSize := 0,
            committed := [], progressSaves := [] } = some (.ok stF)) := by
  refine ⟨?_, ?_, ?_, ?_⟩
  · intro n hn
    simp [getBlockBody, hn]
  · intro n hs h1 h2
    simp [getBlockBody, h1, h2]
  · intro jobs start fuel hjobs hstop hfuel
    simpa using producerLoop_spec rch rb jobs start fuel [] hjobs hstop hfuel
  · intro jobs start fuel addrs hjobs hstop hfuel h20 htot
    obtain ⟨stF, h1, -, -⟩ := applyRun_spec rch rb sizeFn ideal size hsize jobs start fuel
      { abuf := NewAddressBuffer addrs.flatten size false, batch := [], batchSize := 0,
        committed := [], progressSaves := [] }
      addrs [] addrs hjobs hstop hfuel (by simp) h20
      (by refine ⟨?_, ?_, Or.inl ⟨?_, rfl⟩⟩ <;> simp [NewAddressBuffer])
      htot (by simp [batchSum]) List.Forall₂.nil
    exact ⟨stF, h1⟩

/-- Witness for C8: with no blocks at all, `getBlockBody` yields no job and
both loops terminate normally at once. -/
theorem c8_absence_is_termination_witness :
    (getBlockBody (fun _ => none) (fun _ _ => none) 0 = none) ∧
    (producerLoop (fun _ => none) (fun _ _ => none) 1 0 [] = some (numberJobs [] 0)) ∧
    (∃ stF, writeBatchFromDisk (fun _ => none) (fun _ _ => none) (fun _ => 1) 1 1 0
        { abuf := NewAddressBuffer ([] : List (List Nat)).flatten 1 false, batch := [],
          batchSize := 0, committed := [], progressSaves := [] } = some (.ok stF)) := by
  have hc8 := c8_absence_is_termination (fun _ => none) (fun _ _ => none) (fun _ => 1) 1 1
    (by omega)
  refine ⟨hc8.1 0 rfl, ?_, ?_⟩
  · exact hc8.2.2.1 [] 0 1 (fun i hi => absurd hi (Nat.not_lt_zero i)) (hc8.1 0 rfl) (by simp)
  · exact hc8.2.2.2 [] 0 1 [] (fun i hi => absurd hi (Nat.not_lt_zero i)) (hc8.1 0 rfl)
      (by simp) (fun x hx => absurd hx (List.not_mem_nil x)) (by decide)
end StageSenders
